import Mathlib

/-!
Verification development for the subtitle resynchronization tool
(`sync_timestamps.py`).  The Python source is shallowly embedded: strings
are Lean `String`s manipulated through their underlying `List Char`, file
contents are modelled as the list of lines produced by `splitlines`, the
process-level behaviour of `main` is modelled as a pure function over an
explicit `World`, and the Python `IndexError` that `parse_srt` can raise
(`buf[1]` on a one-line block) is modelled by `Option`/`Except` failure.
-/

namespace SyncTs

/-- Whitespace as used by Python's `str.split` / `str.strip` (restricted to
the ASCII whitespace characters, which are the only ones relevant here). -/
def isPyWs (c : Char) : Bool :=
  c.toNat = 32 || c.toNat = 9 || c.toNat = 10 || c.toNat = 13 || c.toNat = 11 || c.toNat = 12

/-- ASCII decimal digit test. -/
def isDigitChar (c : Char) : Bool :=
  (48 ≤ c.toNat) && (c.toNat ≤ 57)

/-- Python right-strip: drop trailing whitespace. -/
def rstripC (cs : List Char) : List Char :=
  (cs.reverse.dropWhile isPyWs).reverse

/-- Python `s.strip()` on a character list: drop whitespace from both ends. -/
def stripC (cs : List Char) : List Char :=
  rstripC (cs.dropWhile isPyWs)

/-- Worker for `splitWs`; `acc` is the current (reversed) in-progress word. -/
def splitWsGo : List Char → List Char → List (List Char)
  | [], acc => if acc.isEmpty then [] else [acc.reverse]
  | c :: cs, acc =>
    if isPyWs c then
      if acc.isEmpty then splitWsGo cs [] else acc.reverse :: splitWsGo cs []
    else splitWsGo cs (c :: acc)

/-- Python `s.split()` (no argument): split on runs of whitespace, never
producing empty words. -/
def splitWs (cs : List Char) : List (List Char) :=
  splitWsGo cs []

/-- Python `" ".join(ws)`: interleave a single space between the pieces. -/
def joinSp : List (List Char) → List Char
  | [] => []
  | [w] => w
  | w :: x :: ws => w ++ ' ' :: joinSp (x :: ws)

/-- Python `" ".join(l.split())`: collapse whitespace runs inside one line. -/
def collapseC (cs : List Char) : List Char :=
  joinSp (splitWs cs)

/-- Membership of the inclusive Arabic Unicode block U+0600–U+06FF. -/
def isArabicChar (c : Char) : Bool :=
  (0x600 ≤ c.toNat) && (c.toNat ≤ 0x6FF)

/-- `ARABIC_RE.search(s)`: does the string contain an Arabic character? -/
def containsArabic (s : String) : Bool :=
  s.data.any isArabicChar

/-- `normalize_text` from `sync_timestamps.py`:
`" ".join(" ".join(l.split()) for l in lines).strip()`. -/
def normalize_text (lines : List String) : String :=
  ⟨stripC (joinSp (lines.map (fun l => collapseC l.data)))⟩

/-- The full normalization pipeline used for matching: first the Arabic
filter applied in `parse_srt` (`english_lines`), then `normalize_text`. -/
def normalize (lines : List String) : String :=
  normalize_text (lines.filter (fun l => !containsArabic l))

/-- Python `s.lstrip('\ufeff')`: drop every leading byte-order mark. -/
def lstripBOM (s : String) : String :=
  ⟨s.data.dropWhile (fun c => c = '\uFEFF')⟩

/-- Numeric value of an ASCII digit character. -/
def digitVal (c : Char) : Nat :=
  c.toNat - 48

/-- Value of a list of ASCII digit characters read as a decimal numeral. -/
def digitsVal (cs : List Char) : Nat :=
  cs.foldl (fun a c => 10 * a + digitVal c) 0

/-- Helper for `pyParseInt`: a (possibly signed) run of decimal digits. -/
def pyDigitsToInt (neg : Bool) (ds : List Char) : Option Int :=
  if !ds.isEmpty && ds.all isDigitChar then
    some (if neg then -(digitsVal ds : Int) else (digitsVal ds : Int))
  else none

/-- Model of Python `int(s)` as used on SRT index lines: surrounding
whitespace is ignored, an optional single sign precedes ASCII decimal
digits.  (Python additionally accepts underscores and non-ASCII digits;
those are irrelevant to this tool and not modelled.) -/
def pyParseInt (s : String) : Option Int :=
  let cs := stripC s.data
  if cs.head? = some '-' then pyDigitsToInt true cs.tail
  else if cs.head? = some '+' then pyDigitsToInt false cs.tail
  else pyDigitsToInt false cs

/-- One parsed subtitle entry, exactly the dict built by `parse_srt`. -/
structure Entry where
  index : Int
  timestamp : String
  text_lines : List String
  norm_text : String
deriving DecidableEq, Repr

/-- Python `line.strip() == ""`. -/
def blankLine (s : String) : Bool :=
  (stripC s.data).isEmpty

/-- The entry `parse_srt` appends for a block `idx / ts / textLines`. -/
def mkEntry (idx : Int) (ts : String) (textLines : List String) : Entry :=
  { index := idx, timestamp := ts, text_lines := textLines,
    norm_text := normalize textLines }

/-- The accumulation loop of `parse_srt`: `buf` is the current block's
lines, `acc` the entries built so far.  A block whose index line fails
`int(...)` is skipped; a block with a valid index but no second line makes
the Python code raise `IndexError` at `buf[1]`, modelled by `none`. -/
def parseLoop (buf : List String) (acc : List Entry) : List String → Option (List Entry)
  | [] => some acc
  | line :: rest =>
    if blankLine line then
      match buf with
      | [] => parseLoop [line] acc rest
      | idxLine :: bufRest =>
        match pyParseInt (lstripBOM idxLine) with
        | none => parseLoop [] acc rest
        | some idx =>
          match bufRest with
          | [] => none
          | ts :: textLines => parseLoop [] (acc ++ [mkEntry idx ts textLines]) rest
    else parseLoop (buf ++ [line]) acc rest

/-- `parse_srt` from `sync_timestamps.py`, over the file's `splitlines`
output; the code iterates over `raw + [""]`. -/
def parse_srt (lines : List String) : Option (List Entry) :=
  parseLoop [] [] (lines ++ [""])

/-- `write_srt`: for each entry, the index line, the timestamp line, the
text lines verbatim, then one blank separator line. -/
def write_srt : List Entry → List String
  | [] => []
  | e :: es => Int.repr e.index :: e.timestamp :: (e.text_lines ++ ("" :: write_srt es))

/-- Association-list lookup keyed by `String` (Python `dict` access). -/
def alistGet {α : Type} : List (String × α) → String → Option α
  | [], _ => none
  | (k, v) :: m, key => if k = key then some v else alistGet m key

/-- Association-list update (Python `d[k] = v`): overwrite if the key is
present, append otherwise. -/
def alistSet {α : Type} : List (String × α) → String → α → List (String × α)
  | [], key, v => [(key, v)]
  | (k, w) :: m, key, v => if k = key then (k, v) :: m else (k, w) :: alistSet m key v

/-- Python `k in d`. -/
def alistHas {α : Type} (m : List (String × α)) (key : String) : Bool :=
  (alistGet m key).isSome

/-- `ts_map.setdefault(key, []).append(ts)`: append to the key's list,
creating the key at the end of the map when absent. -/
def addTs : List (String × List String) → String → String → List (String × List String)
  | [], key, ts => [(key, [ts])]
  | (k, l) :: m, key, ts =>
    if k = key then (k, l ++ [ts]) :: m else (k, l) :: addTs m key ts

/-- The text→timestamps multimap built from the new file's entries; only
entries with non-empty `norm_text` contribute. -/
def buildTsMap (news : List Entry) : List (String × List String) :=
  news.foldl (fun m e => if e.norm_text = "" then m else addTs m e.norm_text e.timestamp) []

/-- Model of `textwrap.shorten(s, width)` as used for diagnostics: collapse
whitespace; if the collapsed text fits, return it, otherwise keep a greedy
prefix of words followed by the placeholder.  Only the fits-in-width branch
is ever exercised by the proofs below. -/
def shortenTake : List (List Char) → Nat → List (List Char)
  | [], _ => []
  | w :: ws, rem =>
    if w.length + 6 ≤ rem then w :: shortenTake ws (rem - (w.length + 1)) else []

/-- See `shortenTake`. -/
def pyShorten (s : String) (width : Nat) : String :=
  let ws := splitWs s.data
  let collapsed := joinSp ws
  if collapsed.length ≤ width then ⟨collapsed⟩
  else
    match shortenTake ws width with
    | [] => ("[...]")
    | kept => (⟨joinSp kept⟩ : String) ++ (" [...]")

/-- The non-fatal diagnostics the tool prints while resolving one file. -/
inductive Diag where
  | noMatch (file : String) (index : Int) (preview : String)
  | duplicate (file : String) (index : Int)
  | skipped (file : String) (key : String)
deriving DecidableEq, Repr

/-- The resolver loop of `main` (`for e in old_entries: ...`): walk the old
entries in file order, popping the first remaining timestamp for the
entry's normalized text; entries with empty text, an absent key, or an
exhausted list are reported and left unchanged.  Returns the rewritten
entries, the final map, and the diagnostics in order. -/
def resolveEntries (file : String) :
    List (String × List String) → List Entry →
      List Entry × List (String × List String) × List Diag
  | m, [] => ([], m, [])
  | m, e :: es =>
    match alistGet m e.norm_text with
    | some (t :: restTs) =>
      if e.norm_text = "" then
        let r := resolveEntries file m es
        (e :: r.1, r.2.1, Diag.noMatch file e.index (pyShorten e.norm_text 30) :: r.2.2)
      else
        let r := resolveEntries file (alistSet m e.norm_text restTs) es
        ({ e with timestamp := t } :: r.1, r.2.1,
          if restTs.isEmpty then r.2.2 else Diag.duplicate file e.index :: r.2.2)
    | _ =>
      let r := resolveEntries file m es
      (e :: r.1, r.2.1, Diag.noMatch file e.index (pyShorten e.norm_text 30) :: r.2.2)

/-- `make_key`: the first fifteen characters of a file name
(Python `name[:15]`, which slices code points). -/
def make_key (name : String) : String :=
  ⟨name.data.take 15⟩

/-- The new-directory scan of `main`: build the key→file map, warning (and
overwriting, so the later-enumerated file wins) on key collisions.  Files
are `(name, lines)` pairs; warnings are `(key, winning file name)`. -/
def buildNewMapGo :
    List (String × (String × List String)) → List (String × String) →
      List (String × List String) →
      List (String × (String × List String)) × List (String × String)
  | m, ws, [] => (m, ws)
  | m, ws, f :: fs =>
    buildNewMapGo (alistSet m (make_key f.1) f)
      (if alistHas m (make_key f.1) then ws ++ [(make_key f.1, f.1)] else ws) fs

/-- See `buildNewMapGo`. -/
def buildNewMap (files : List (String × List String)) :
    List (String × (String × List String)) × List (String × String) :=
  buildNewMapGo [] [] files

/-- The old-directory loop of `main`: for each old file, look up its key;
skip (with a diagnostic) when unmatched, otherwise parse both files,
resolve, and write.  A parse crash (`IndexError`) aborts the run, modelled
by `Except.error`.  Returns the written `(name, lines)` outputs and the
diagnostics. -/
def processOlds (newMap : List (String × (String × List String))) :
    List (String × List String) →
      Except String (List (String × List String) × List Diag)
  | [] => Except.ok ([], [])
  | f :: fs =>
    match alistGet newMap (make_key f.1) with
    | none =>
      match processOlds newMap fs with
      | Except.ok r => Except.ok (r.1, Diag.skipped f.1 (make_key f.1) :: r.2)
      | Except.error e => Except.error e
    | some nf =>
      match parse_srt nf.2, parse_srt f.2 with
      | some newEs, some oldEs =>
        let r1 := resolveEntries f.1 (buildTsMap newEs) oldEs
        match processOlds newMap fs with
        | Except.ok r => Except.ok ((f.1, write_srt r1.1) :: r.1, r1.2.2 ++ r.2)
        | Except.error e => Except.error e
      | _, _ => Except.error ("IndexError: list index out of range")

/-- The observable inputs of one invocation of `main`: whether each
argument names a directory, and the directory listings with file
contents (as line lists, in enumeration order). -/
structure World where
  newDirIsDir : Bool
  oldDirIsDir : Bool
  newFiles : List (String × List String)
  oldFiles : List (String × List String)

/-- `main` as a function of the `World`: directory validation first
(`p.error`, a fatal non-zero exit, modelled by `Except.error`), then the
matcher and the per-file processing.  The `ok` payload is the written
outputs, the per-entry diagnostics, and the collision warnings. -/
def mainRun (w : World) :
    Except String (List (String × List String) × List Diag × List (String × String)) :=
  if w.newDirIsDir && w.oldDirIsDir then
    match processOlds (buildNewMap w.newFiles).1 w.oldFiles with
    | Except.ok r => Except.ok (r.1, r.2, (buildNewMap w.newFiles).2)
    | Except.error e => Except.error e
  else Except.error ("Both new_dir and old_dir must be existing directories.")

/-- One side `HH:MM:SS,mmm` of the strict `TIMESTAMP_RE` pattern. -/
def timePart : List Char → Bool
  | [h1, h2, c1, m1, m2, c2, s1, s2, cm, t1, t2, t3] =>
    isDigitChar h1 && isDigitChar h2 && (c1 = ':') &&
    isDigitChar m1 && isDigitChar m2 && (c2 = ':') &&
    isDigitChar s1 && isDigitChar s2 && (cm = ',') &&
    isDigitChar t1 && isDigitChar t2 && isDigitChar t3
  | _ => false

/-- The strict timestamp-line regex `TIMESTAMP_RE` of `sync_timestamps.py`:
`^\d\d:\d\d:\d\d,\d\d\d\s*-->\s*\d\d:\d\d:\d\d,\d\d\d$`.  (Defined in the
source but never applied by its parser.) -/
def matchesTsLine (s : String) : Bool :=
  let cs := s.data
  timePart (cs.take 12) &&
    match (cs.drop 12).dropWhile isPyWs with
    | '-' :: '-' :: '>' :: r2 => timePart (r2.dropWhile isPyWs)
    | _ => false

/-- Replace each maximal run of whitespace by a single space, keeping the
last character of every run as `' '`.  This is the literal reading of the
spec's per-line rule "runs of whitespace become a single space"; together
with trimming it is proved below to coincide with the code's
`" ".join(l.split())`. -/
def collapseRuns : List Char → List Char
  | [] => []
  | [c] => if isPyWs c then [' '] else [c]
  | c :: d :: cs =>
    if isPyWs c && isPyWs d then collapseRuns (d :: cs)
    else (if isPyWs c then ' ' else c) :: collapseRuns (d :: cs)

/-- Normalization as §4.3 of the spec words it: exclude lines containing an
Arabic-block character, whitespace-collapse each surviving line (runs to a
single space, leading/trailing trimmed), join the lines with a single
space, and trim the result. -/
def normalizeSpec (lines : List String) : String :=
  ⟨stripC (joinSp (((lines.filter (fun l => !containsArabic l)).map
      (fun l => stripC (collapseRuns l.data)))))⟩

/-- A well-formed SRT block: an index line accepted by `int(...)`, a
timestamp line matching the strict pattern, then non-blank text lines. -/
def validBlock : List String → Bool
  | idxLine :: tsLine :: textLines =>
    (pyParseInt (lstripBOM idxLine)).isSome && matchesTsLine tsLine &&
      textLines.all (fun l => !blankLine l)
  | _ => false

/-- Concatenate blocks with a single blank separator line between them. -/
def joinBlocks : List (List String) → List String
  | [] => []
  | [b] => b
  | b :: c :: bs => b ++ ("" :: joinBlocks (c :: bs))

/-- Well-formed input text for the round-trip property: a sequence of
valid blocks separated by blank lines. -/
def WellFormed (lines : List String) : Prop :=
  ∃ blocks : List (List String), lines = joinBlocks blocks ∧
    ∀ b ∈ blocks, validBlock b = true

/-- Invariants of every entry produced by `parse_srt`, sufficient for the
serialize/re-parse round trip. -/
def GoodEntry (e : Entry) : Prop :=
  blankLine e.timestamp = false ∧
    (∀ l ∈ e.text_lines, blankLine l = false) ∧
    e.norm_text = normalize e.text_lines

/-- Reference decimal-digit expansion of a natural number (most significant
digit first); proved equal to the fuel-based `Nat.toDigits 10`. -/
def myDigits (n : Nat) : List Char :=
  if _h : n < 10 then [Nat.digitChar n]
  else myDigits (n / 10) ++ [Nat.digitChar (n % 10)]
decreasing_by exact Nat.div_lt_self (by omega) (by omega)

/-- The entry `parse_srt` builds from a (valid) block's lines. -/
def entryOfBlock : List String → Entry
  | idxLine :: tsLine :: textLines =>
    mkEntry ((pyParseInt (lstripBOM idxLine)).getD 0) tsLine textLines
  | _ => mkEntry 0 ("") []

/-! ### Whitespace, word-splitting, and join lemmas -/

theorem dropWhile_all_false {p : Char → Bool} :
    ∀ {l : List Char}, (∀ c ∈ l, p c = false) → l.dropWhile p = l := by
  intro l h
  cases l with
  | nil => rfl
  | cons a t => simp [List.dropWhile_cons, h a (by simp)]

theorem splitWsGo_clean_append {w : List Char} (hw : ∀ c ∈ w, isPyWs c = false) :
    ∀ (cs acc : List Char), splitWsGo (w ++ cs) acc = splitWsGo cs (w.reverse ++ acc) := by
  induction w with
  | nil => intro cs acc; simp
  | cons a t ih =>
    intro cs acc
    have ha : isPyWs a = false := hw a (by simp)
    simp only [List.cons_append, splitWsGo, ha, Bool.false_eq_true, if_false, List.append_eq]
    rw [ih (fun c hc => hw c (by simp [hc])) cs (a :: acc)]
    simp

theorem splitWs_ws_cons {c : Char} (hc : isPyWs c = true) (cs : List Char) :
    splitWs (c :: cs) = splitWs cs := by
  simp [splitWs, splitWsGo, hc]

theorem splitWs_all_ws : ∀ {cs : List Char}, (∀ c ∈ cs, isPyWs c = true) → splitWs cs = [] := by
  intro cs
  induction cs with
  | nil => intro _; rfl
  | cons a t ih =>
    intro h
    rw [splitWs_ws_cons (h a (by simp))]
    exact ih (fun c hc => h c (by simp [hc]))

theorem splitWs_ws_append {p : List Char} (h : ∀ c ∈ p, isPyWs c = true) (r : List Char) :
    splitWs (p ++ r) = splitWs r := by
  induction p with
  | nil => simp
  | cons a t ih =>
    rw [List.cons_append, splitWs_ws_cons (h a (by simp))]
    exact ih (fun c hc => h c (by simp [hc]))

theorem splitWs_word_append {w r : List Char} (hw : ∀ c ∈ w, isPyWs c = false)
    (hne : w ≠ []) (hr : r = [] ∨ ∃ s r', r = s :: r' ∧ isPyWs s = true) :
    splitWs (w ++ r) = w :: splitWs r := by
  rw [splitWs, splitWsGo_clean_append hw]
  have hrev : ¬ w.reverse.isEmpty := by
    simp [List.isEmpty_iff, hne]
  rcases hr with rfl | ⟨s, r', rfl, hs⟩
  · show splitWsGo [] (w.reverse ++ []) = w :: splitWs []
    simp only [List.append_nil, splitWsGo, hrev, if_false]
    simp [splitWs, splitWsGo]
  · rw [splitWs_ws_cons hs]
    show splitWsGo (s :: r') (w.reverse ++ []) = w :: splitWs r'
    simp only [List.append_nil, splitWsGo, hs, if_true, hrev, if_false]
    simp [splitWs]

theorem splitWsGo_words_clean :
    ∀ (cs acc : List Char), (∀ c ∈ acc, isPyWs c = false) →
      ∀ w ∈ splitWsGo cs acc, w ≠ [] ∧ ∀ c ∈ w, isPyWs c = false := by
  intro cs
  induction cs with
  | nil =>
    intro acc hacc w hw
    by_cases h : acc.isEmpty = true
    · rw [splitWsGo, if_pos h] at hw
      simp at hw
    · rw [splitWsGo, if_neg h] at hw
      rw [List.mem_singleton] at hw
      subst hw
      refine ⟨by simpa [List.isEmpty_iff] using h, ?_⟩
      intro c hc
      exact hacc c (by simpa using hc)
  | cons a t ih =>
    intro acc hacc w hw
    by_cases ha : isPyWs a = true
    · by_cases h : acc.isEmpty = true
      · rw [splitWsGo, if_pos ha, if_pos h] at hw
        exact ih [] (by simp) w hw
      · rw [splitWsGo, if_pos ha, if_neg h, List.mem_cons] at hw
        cases hw with
        | inl hw =>
          subst hw
          refine ⟨by simpa [List.isEmpty_iff] using h, ?_⟩
          intro c hc
          exact hacc c (by simpa using hc)
        | inr hw => exact ih [] (by simp) w hw
    · rw [splitWsGo, if_neg ha] at hw
      refine ih (a :: acc) ?_ w hw
      intro c hc
      rcases List.mem_cons.mp hc with rfl | hc
      · simpa using ha
      · exact hacc c hc

theorem splitWs_words_clean {cs : List Char} :
    ∀ w ∈ splitWs cs, w ≠ [] ∧ ∀ c ∈ w, isPyWs c = false :=
  splitWsGo_words_clean cs [] (by simp)

theorem joinSp_cons {w : List Char} {l : List (List Char)} (h : l ≠ []) :
    joinSp (w :: l) = w ++ ' ' :: joinSp l := by
  cases l with
  | nil => exact absurd rfl h
  | cons x t => rfl

theorem joinSp_ne_nil {w : List Char} {l : List (List Char)} (h : w ≠ []) :
    joinSp (w :: l) ≠ [] := by
  cases l with
  | nil => simpa [joinSp] using h
  | cons x t => simp [joinSp]

theorem mem_joinSp {c : Char} :
    ∀ {l : List (List Char)}, c ∈ joinSp l → c = ' ' ∨ ∃ w ∈ l, c ∈ w := by
  intro l
  induction l with
  | nil => intro h; simp [joinSp] at h
  | cons w t ih =>
    intro h
    cases t with
    | nil =>
      simp only [joinSp] at h
      exact Or.inr ⟨w, by simp, h⟩
    | cons x s =>
      rw [joinSp_cons (by simp)] at h
      rcases List.mem_append.mp h with h | h
      · exact Or.inr ⟨w, by simp, h⟩
      · rcases List.mem_cons.mp h with rfl | h
        · exact Or.inl rfl
        · rcases ih h with h | ⟨u, hu, hcu⟩
          · exact Or.inl h
          · exact Or.inr ⟨u, by simp [hu], hcu⟩

theorem rstripC_nil : rstripC [] = [] := rfl

theorem rstripC_word_append {w : List Char} (hw : ∀ c ∈ w, isPyWs c = false)
    (y : List Char) : rstripC (w ++ y) = w ++ rstripC y := by
  unfold rstripC
  rw [List.reverse_append, List.dropWhile_append]
  by_cases h : (y.reverse.dropWhile isPyWs).isEmpty
  · rw [if_pos h]
    rw [dropWhile_all_false (fun c hc => hw c (by simpa using hc))]
    simp only [List.reverse_reverse]
    have : (y.reverse.dropWhile isPyWs) = [] := by simpa [List.isEmpty_iff] using h
    simp [this]
  · rw [if_neg h]
    simp

theorem rstripC_cons_of_ne {x : List Char} (c : Char) (h : rstripC x ≠ []) :
    rstripC (c :: x) = c :: rstripC x := by
  unfold rstripC at *
  rw [List.reverse_cons, List.dropWhile_append]
  have h' : ¬ (x.reverse.dropWhile isPyWs).isEmpty := by
    intro hx
    exact h (by simp [List.isEmpty_iff.mp hx])
  rw [if_neg h']
  simp

theorem stripC_ws_cons {c : Char} (hc : isPyWs c = true) (x : List Char) :
    stripC (c :: x) = stripC x := by
  simp [stripC, List.dropWhile_cons, hc]

theorem stripC_word_append {w : List Char} (hw : ∀ c ∈ w, isPyWs c = false)
    (hne : w ≠ []) (y : List Char) : stripC (w ++ y) = w ++ rstripC y := by
  unfold stripC
  cases w with
  | nil => exact absurd rfl hne
  | cons a t =>
    have ha : isPyWs a = false := hw a (by simp)
    rw [List.cons_append, List.dropWhile_cons, ha]
    simp only [Bool.false_eq_true, if_false]
    exact rstripC_word_append hw y

theorem stripC_nil : stripC [] = [] := rfl

theorem stripC_all_ws : ∀ {cs : List Char}, (∀ c ∈ cs, isPyWs c = true) → stripC cs = [] := by
  intro cs h
  induction cs with
  | nil => rfl
  | cons a t ih => rw [stripC_ws_cons (h a (by simp))]; exact ih (fun c hc => h c (by simp [hc]))

/-! ### Run-collapsing coincides with split-and-rejoin -/

theorem collapseRuns_singleton_ws {c : Char} (hc : isPyWs c = true) :
    collapseRuns [c] = [' '] := by
  simp [collapseRuns, hc]

theorem collapseRuns_cons_ws_ws {a b : Char} (ha : isPyWs a = true) (hb : isPyWs b = true)
    (s : List Char) : collapseRuns (a :: b :: s) = collapseRuns (b :: s) := by
  simp [collapseRuns, ha, hb]

theorem collapseRuns_cons_not_ws {d : Char} (hd : isPyWs d = false) (t : List Char) :
    collapseRuns (d :: t) = d :: collapseRuns t := by
  cases t with
  | nil => simp [collapseRuns, hd]
  | cons x s => simp [collapseRuns, hd]

theorem collapseRuns_all_ws : ∀ (cs : List Char), cs ≠ [] → (∀ c ∈ cs, isPyWs c = true) →
    collapseRuns cs = [' '] := by
  intro cs
  induction cs with
  | nil => intro h; exact absurd rfl h
  | cons a t ih =>
    intro _ h
    cases t with
    | nil => exact collapseRuns_singleton_ws (h a (by simp))
    | cons b s =>
      rw [collapseRuns_cons_ws_ws (h a (by simp)) (h b (by simp))]
      exact ih (by simp) (fun c hc => h c (by simp [hc]))

theorem collapseRuns_ws_append : ∀ (p : List Char), p ≠ [] → (∀ c ∈ p, isPyWs c = true) →
    ∀ (r : List Char), (∀ s rr, r = s :: rr → isPyWs s = false) →
    collapseRuns (p ++ r) = if r.isEmpty then [' '] else ' ' :: collapseRuns r := by
  intro p
  induction p with
  | nil => intro h; exact absurd rfl h
  | cons a t ih =>
    intro _ hp r hr
    have ha : isPyWs a = true := hp a (by simp)
    cases t with
    | nil =>
      cases r with
      | nil => simp [collapseRuns_singleton_ws ha]
      | cons s rr =>
        have hs : isPyWs s = false := hr s rr rfl
        simp only [List.singleton_append, List.isEmpty_cons]
        rw [show (a :: s :: rr) = a :: s :: rr from rfl]
        cases rr with
        | nil => simp [collapseRuns, ha, hs]
        | cons x y => simp [collapseRuns, ha, hs]
    | cons b t' =>
      have hb : isPyWs b = true := hp b (by simp)
      rw [List.cons_append, List.cons_append, collapseRuns_cons_ws_ws ha hb,
        ← List.cons_append]
      exact ih (by simp) (fun c hc => hp c (by simp [hc])) r hr

theorem collapseRuns_word_append : ∀ (w : List Char), (∀ c ∈ w, isPyWs c = false) →
    ∀ (r : List Char), collapseRuns (w ++ r) = w ++ collapseRuns r := by
  intro w
  induction w with
  | nil => intro _ r; simp
  | cons a t ih =>
    intro hw r
    rw [List.cons_append, collapseRuns_cons_not_ws (hw a (by simp)),
      ih (fun c hc => hw c (by simp [hc])) r]
    rfl

theorem splitWsGo_ne_nil_of_acc : ∀ (cs acc : List Char), acc ≠ [] → splitWsGo cs acc ≠ [] := by
  intro cs
  induction cs with
  | nil =>
    intro acc h
    rw [splitWsGo, if_neg (by simpa [List.isEmpty_iff] using h)]
    simp
  | cons a t ih =>
    intro acc h
    by_cases ha : isPyWs a = true
    · rw [splitWsGo, if_pos ha, if_neg (by simpa [List.isEmpty_iff] using h)]
      simp
    · rw [splitWsGo, if_neg ha]
      exact ih (a :: acc) (by simp)

theorem splitWs_cons_not_ws_ne {d : Char} (hd : isPyWs d = false) (t : List Char) :
    splitWs (d :: t) ≠ [] := by
  rw [splitWs, splitWsGo, if_neg (by simp [hd])]
  exact splitWsGo_ne_nil_of_acc t [d] (by simp)

theorem stripC_collapseRuns_lstrip {p : List Char} (hp : ∀ c ∈ p, isPyWs c = true)
    (r : List Char) (hr : ∀ s rr, r = s :: rr → isPyWs s = false) :
    stripC (collapseRuns (p ++ r)) = stripC (collapseRuns r) := by
  cases p with
  | nil => rfl
  | cons a t =>
    cases r with
    | nil =>
      rw [List.append_nil, collapseRuns_all_ws (a :: t) (by simp) hp]
      rfl
    | cons s rr =>
      rw [collapseRuns_ws_append (a :: t) (by simp) hp (s :: rr) hr]
      simp only [List.isEmpty_cons, Bool.false_eq_true, if_false]
      exact stripC_ws_cons (by decide) _

theorem dropWhile_cons_false {p : Char → Bool} :
    ∀ {l : List Char} {s : Char} {rr : List Char}, l.dropWhile p = s :: rr → p s = false := by
  intro l
  induction l with
  | nil => intro s rr h; simp at h
  | cons a t ih =>
    intro s rr h
    rw [List.dropWhile_cons] at h
    by_cases ha : p a = true
    · rw [if_pos ha] at h
      exact ih h
    · rw [if_neg ha] at h
      injection h with h1 _
      subst h1
      simpa using ha

theorem stripC_collapseRuns_aux : ∀ (n : Nat) (cs : List Char), cs.length ≤ n →
    stripC (collapseRuns cs) = joinSp (splitWs cs) := by
  intro n
  induction n with
  | zero =>
    intro cs h
    have : cs = [] := by
      cases cs with
      | nil => rfl
      | cons a t => simp at h
    subst this; rfl
  | succ n ih =>
    intro cs hlen
    have hdec := List.takeWhile_append_dropWhile isPyWs cs
    have hpws : ∀ c ∈ cs.takeWhile isPyWs, isPyWs c = true :=
      fun c hc => List.mem_takeWhile_imp hc
    cases hr0 : cs.dropWhile isPyWs with
    | nil =>
      have hall : ∀ c ∈ cs, isPyWs c = true := by
        intro c hc
        rw [← hdec, hr0, List.append_nil] at hc
        exact hpws c hc
      rw [splitWs_all_ws hall]
      by_cases hcs : cs = []
      · subst hcs; rfl
      · rw [collapseRuns_all_ws cs hcs hall]
        rfl
    | cons c r0 =>
      have hc : isPyWs c = false := dropWhile_cons_false hr0
      -- reduce to the suffix r that starts with a non-whitespace character
      have hhead : ∀ s rr, (c :: r0) = s :: rr → isPyWs s = false := by
        intro s rr h
        injection h with h1 _
        subst h1
        exact hc
      have hgoal1 : stripC (collapseRuns cs) = stripC (collapseRuns (c :: r0)) := by
        conv_lhs => rw [← hdec, hr0]
        exact stripC_collapseRuns_lstrip hpws (c :: r0) hhead
      have hgoal2 : splitWs cs = splitWs (c :: r0) := by
        conv_lhs => rw [← hdec, hr0]
        exact splitWs_ws_append hpws (c :: r0)
      rw [hgoal1, hgoal2]
      -- split r into its first word w and the remainder r'
      obtain ⟨w, hwdef⟩ : ∃ w, (c :: r0).takeWhile (fun x => !isPyWs x) = w := ⟨_, rfl⟩
      obtain ⟨r', hr'def⟩ : ∃ x, (c :: r0).dropWhile (fun x => !isPyWs x) = x := ⟨_, rfl⟩
      have hwdec : w ++ r' = c :: r0 := by
        rw [← hwdef, ← hr'def]
        exact List.takeWhile_append_dropWhile _ _
      have hwclean : ∀ x ∈ w, isPyWs x = false := by
        intro x hx
        rw [← hwdef] at hx
        have := List.mem_takeWhile_imp hx
        simpa using this
      have hwne : w ≠ [] := by
        rw [← hwdef, List.takeWhile_cons, if_pos (by simp [hc])]
        simp
      have hr'head : ∀ s rr, r' = s :: rr → isPyWs s = true := by
        intro s rr h
        rw [← hr'def] at h
        have := dropWhile_cons_false h
        simpa using this
      have hr'alt : r' = [] ∨ ∃ s rr, r' = s :: rr ∧ isPyWs s = true := by
        cases hx : r' with
        | nil => exact Or.inl rfl
        | cons s rr => exact Or.inr ⟨s, rr, rfl, hr'head s rr hx⟩
      have hsplit : splitWs (c :: r0) = w :: splitWs r' := by
        conv_lhs => rw [← hwdec]
        exact splitWs_word_append hwclean hwne hr'alt
      have hcoll : collapseRuns (c :: r0) = w ++ collapseRuns r' := by
        conv_lhs => rw [← hwdec]
        exact collapseRuns_word_append w hwclean r'
      rw [hsplit, hcoll, stripC_word_append hwclean hwne]
      -- now by cases on r'
      rcases hr'alt with hr'nil | ⟨s, rr, hr'cons, hs⟩
      · rw [hr'nil]
        show w ++ rstripC (collapseRuns []) = joinSp (w :: splitWs [])
        rw [show collapseRuns [] = [] from rfl, show splitWs ([] : List Char) = [] from rfl,
          rstripC_nil]
        simp [joinSp]
      · -- r' starts with whitespace; split off its whitespace run q, leaving r''
        obtain ⟨q, hqdef⟩ : ∃ q, r'.takeWhile isPyWs = q := ⟨_, rfl⟩
        obtain ⟨r'', hr''def⟩ : ∃ x, r'.dropWhile isPyWs = x := ⟨_, rfl⟩
        have hqdec : q ++ r'' = r' := by
          rw [← hqdef, ← hr''def]
          exact List.takeWhile_append_dropWhile _ _
        have hqws : ∀ x ∈ q, isPyWs x = true := by
          intro x hx
          rw [← hqdef] at hx
          exact List.mem_takeWhile_imp hx
        have hqne : q ≠ [] := by
          rw [← hqdef, hr'cons, List.takeWhile_cons, if_pos hs]
          simp
        have hr''head : ∀ s' rr', r'' = s' :: rr' → isPyWs s' = false := by
          intro s' rr' h
          rw [← hr''def] at h
          exact dropWhile_cons_false h
        have hcoll' : collapseRuns r' = if r''.isEmpty then [' '] else ' ' :: collapseRuns r'' := by
          conv_lhs => rw [← hqdec]
          exact collapseRuns_ws_append q hqne hqws r'' hr''head
        have hsplit' : splitWs r' = splitWs r'' := by
          conv_lhs => rw [← hqdec]
          exact splitWs_ws_append hqws r''
        cases hx : r'' with
        | nil =>
          rw [hx] at hcoll'
          rw [hcoll', hsplit', hx]
          show w ++ rstripC (if ([] : List Char).isEmpty then [' '] else ' ' :: collapseRuns [])
              = joinSp (w :: splitWs [])
          rw [if_pos (by simp), show splitWs ([] : List Char) = [] from rfl]
          have : rstripC [' '] = [] := by decide
          rw [this]
          simp [joinSp]
        | cons d t =>
          have hd : isPyWs d = false := hr''head d t hx
          rw [hx] at hcoll'
          simp only [List.isEmpty_cons, Bool.false_eq_true, if_false] at hcoll'
          -- apply the induction hypothesis to r''
          have hlen'' : r''.length ≤ n := by
            have h1 : cs.length = (cs.takeWhile isPyWs).length + (c :: r0).length := by
              conv_lhs => rw [← hdec, hr0]
              simp
            have h2 : (c :: r0).length = w.length + r'.length := by
              conv_lhs => rw [← hwdec]
              simp
            have h3 : r'.length = q.length + r''.length := by
              conv_lhs => rw [← hqdec]
              simp
            have hw1 : 1 ≤ w.length := by
              cases hwx : w with
              | nil => exact absurd hwx hwne
              | cons u v => simp
            omega
          have hih := ih r'' hlen''
          rw [hx] at hih
          have hihhead : stripC (collapseRuns (d :: t)) = rstripC (collapseRuns (d :: t)) := by
            rw [collapseRuns_cons_not_ws hd, stripC, List.dropWhile_cons, hd]
            simp
          rw [hihhead] at hih
          have hsne : splitWs (d :: t) ≠ [] := splitWs_cons_not_ws_ne hd t
          have hjne : joinSp (splitWs (d :: t)) ≠ [] := by
            cases hsw : splitWs (d :: t) with
            | nil => exact absurd hsw hsne
            | cons u v =>
              have hu := (@splitWs_words_clean (d :: t) u (by simp [hsw])).1
              exact joinSp_ne_nil hu
          rw [hcoll', rstripC_cons_of_ne ' ' (by rw [hih]; exact hjne), hih,
            hsplit', hx, joinSp_cons hsne]

theorem stripC_collapseRuns (cs : List Char) :
    stripC (collapseRuns cs) = joinSp (splitWs cs) :=
  stripC_collapseRuns_aux cs.length cs le_rfl

/-! ### Canonical-form lemmas for `normalize` -/

theorem splitWs_eq_nil_iff {cs : List Char} :
    splitWs cs = [] ↔ ∀ c ∈ cs, isPyWs c = true := by
  constructor
  · intro h c hc
    by_contra hcw
    have hcw' : isPyWs c = false := by
      cases hx : isPyWs c
      · rfl
      · exact absurd hx hcw
    -- split cs at the first occurrence of a non-whitespace character
    induction cs with
    | nil => simp at hc
    | cons a t ih =>
      by_cases ha : isPyWs a = true
      · rw [splitWs_ws_cons ha] at h
        rcases List.mem_cons.mp hc with rfl | hc'
        · rw [ha] at hcw'; simp at hcw'
        · exact ih h hc'
      · have ha' : isPyWs a = false := by
          cases hx : isPyWs a
          · rfl
          · exact absurd hx ha
        exact splitWs_cons_not_ws_ne ha' t h
  · exact splitWs_all_ws

theorem joinSp_append {a b : List (List Char)} (ha : a ≠ []) (hb : b ≠ []) :
    joinSp (a ++ b) = joinSp a ++ ' ' :: joinSp b := by
  induction a with
  | nil => exact absurd rfl ha
  | cons x a' ih =>
    cases a' with
    | nil =>
      rw [List.singleton_append, joinSp_cons hb]
      rfl
    | cons y a'' =>
      rw [List.cons_append, joinSp_cons (by simp), joinSp_cons (by simp),
        ih (by simp), List.append_assoc]
      rfl

theorem joinSp_flatten : ∀ (wss : List (List (List Char))), (∀ ws ∈ wss, ws ≠ []) →
    joinSp (wss.map joinSp) = joinSp wss.flatten := by
  intro wss
  induction wss with
  | nil => intro _; rfl
  | cons ws wss' ih =>
    intro h
    cases wss' with
    | nil => simp [joinSp]
    | cons ws2 wss'' =>
      have hfl : (ws2 :: wss'').flatten ≠ [] := by
        rw [List.flatten_ne_nil_iff]
        exact ⟨ws2, by simp, h ws2 (by simp)⟩
      rw [List.map_cons, joinSp_cons (by simp), ih (fun x hx => h x (by simp [hx]))]
      conv_rhs => rw [List.flatten_cons]
      rw [joinSp_append (h ws (by simp)) hfl]

theorem splitWs_joinSp : ∀ (ws : List (List Char)),
    (∀ w ∈ ws, w ≠ [] ∧ ∀ c ∈ w, isPyWs c = false) → splitWs (joinSp ws) = ws := by
  intro ws
  induction ws with
  | nil => intro _; rfl
  | cons w t ih =>
    intro h
    cases t with
    | nil =>
      show splitWs (joinSp [w]) = [w]
      have : joinSp [w] = w ++ [] := by simp [joinSp]
      rw [this, splitWs_word_append (h w (by simp)).2 (h w (by simp)).1 (Or.inl rfl)]
      rfl
    | cons x t' =>
      rw [joinSp_cons (by simp),
        splitWs_word_append (h w (by simp)).2 (h w (by simp)).1
          (Or.inr ⟨' ', joinSp (x :: t'), rfl, by decide⟩),
        splitWs_ws_cons (by decide), ih (fun u hu => h u (by simp [hu]))]

theorem strip_joinSp_clean : ∀ (ws : List (List Char)),
    (∀ w ∈ ws, w ≠ [] ∧ ∀ c ∈ w, isPyWs c = false) →
    stripC (joinSp ws) = joinSp ws ∧ rstripC (joinSp ws) = joinSp ws := by
  intro ws
  induction ws with
  | nil => exact fun _ => ⟨rfl, rfl⟩
  | cons w t ih =>
    intro h
    obtain ⟨hwne, hwclean⟩ := h w (by simp)
    cases t with
    | nil =>
      show stripC (joinSp [w]) = joinSp [w] ∧ rstripC (joinSp [w]) = joinSp [w]
      have he : joinSp [w] = w ++ [] := by simp [joinSp]
      rw [he, stripC_word_append hwclean hwne, rstripC_word_append hwclean]
      exact ⟨rfl, rfl⟩
    | cons x t' =>
      have iht := ih (fun u hu => h u (by simp [hu]))
      have hxne : x ≠ [] := (h x (by simp)).1
      have hjne : joinSp (x :: t') ≠ [] := joinSp_ne_nil hxne
      have hrne : rstripC (joinSp (x :: t')) ≠ [] := by
        rw [iht.2]; exact hjne
      rw [joinSp_cons (by simp), stripC_word_append hwclean hwne,
        rstripC_word_append hwclean, rstripC_cons_of_ne ' ' hrne, iht.2]
      exact ⟨rfl, rfl⟩

theorem mem_splitWsGo_mem : ∀ (cs acc w : List Char) (c : Char),
    w ∈ splitWsGo cs acc → c ∈ w → c ∈ cs ∨ c ∈ acc := by
  intro cs
  induction cs with
  | nil =>
    intro acc w c hw hc
    by_cases h : acc.isEmpty = true
    · rw [splitWsGo, if_pos h] at hw
      simp at hw
    · rw [splitWsGo, if_neg h, List.mem_singleton] at hw
      subst hw
      exact Or.inr (by simpa using hc)
  | cons a t ih =>
    intro acc w c hw hc
    by_cases ha : isPyWs a = true
    · by_cases h : acc.isEmpty = true
      · rw [splitWsGo, if_pos ha, if_pos h] at hw
        rcases ih [] w c hw hc with h' | h'
        · exact Or.inl (by simp [h'])
        · simp at h'
      · rw [splitWsGo, if_pos ha, if_neg h, List.mem_cons] at hw
        cases hw with
        | inl hw =>
          subst hw
          exact Or.inr (by simpa using hc)
        | inr hw =>
          rcases ih [] w c hw hc with h' | h'
          · exact Or.inl (by simp [h'])
          · simp at h'
    · rw [splitWsGo, if_neg ha] at hw
      rcases ih (a :: acc) w c hw hc with h' | h'
      · exact Or.inl (by simp [h'])
      · rcases List.mem_cons.mp h' with rfl | h''
        · exact Or.inl (by simp)
        · exact Or.inr h''

theorem mem_splitWs_mem {cs w : List Char} {c : Char}
    (hw : w ∈ splitWs cs) (hc : c ∈ w) : c ∈ cs := by
  rcases mem_splitWsGo_mem cs [] w c hw hc with h | h
  · exact h
  · simp at h

/-- The words of all surviving (non-Arabic) lines, in order. -/
def allWords (lines : List String) : List (List Char) :=
  ((lines.filter (fun l => !containsArabic l)).map (fun l => splitWs l.data)).flatten

theorem allWords_clean {lines : List String} :
    ∀ w ∈ allWords lines, w ≠ [] ∧ ∀ c ∈ w, isPyWs c = false := by
  intro w hw
  rw [allWords, List.mem_flatten] at hw
  obtain ⟨ws, hws, hwin⟩ := hw
  rw [List.mem_map] at hws
  obtain ⟨l, _, rfl⟩ := hws
  exact splitWs_words_clean w hwin

theorem normalize_eq_joinWords {lines : List String}
    (h : ∀ l ∈ lines.filter (fun l => !containsArabic l), splitWs l.data ≠ []) :
    normalize lines = ⟨joinSp (allWords lines)⟩ := by
  rw [normalize, normalize_text]
  have hmap : (lines.filter (fun l => !containsArabic l)).map (fun l => collapseC l.data)
      = ((lines.filter (fun l => !containsArabic l)).map (fun l => splitWs l.data)).map joinSp := by
    rw [List.map_map]
    rfl
  rw [hmap, joinSp_flatten _ (by
    intro ws hws
    rw [List.mem_map] at hws
    obtain ⟨l, hl, rfl⟩ := hws
    exact h l hl)]
  show (⟨stripC (joinSp (allWords lines))⟩ : String) = ⟨joinSp (allWords lines)⟩
  rw [(strip_joinSp_clean (allWords lines) allWords_clean).1]

theorem allWords_no_arabic {lines : List String} {c : Char}
    (hc : c ∈ joinSp (allWords lines)) : isArabicChar c = false := by
  rcases mem_joinSp hc with rfl | ⟨w, hw, hcw⟩
  · decide
  · rw [allWords, List.mem_flatten] at hw
    obtain ⟨ws, hws, hwin⟩ := hw
    rw [List.mem_map] at hws
    obtain ⟨l, hl, rfl⟩ := hws
    have hcl : c ∈ l.data := mem_splitWs_mem hwin hcw
    have hla : containsArabic l = false := by
      rw [List.mem_filter] at hl
      simpa using hl.2
    rw [containsArabic] at hla
    by_contra hca
    have : l.data.any isArabicChar = true := List.any_eq_true.mpr ⟨c, hcl, by
      cases hx : isArabicChar c
      · exact absurd hx hca
      · rfl⟩
    rw [hla] at this
    simp at this

theorem normalize_canonical_fixed {lines : List String} :
    normalize [(⟨joinSp (allWords lines)⟩ : String)] = ⟨joinSp (allWords lines)⟩ := by
  rw [normalize]
  have hnoar : containsArabic ⟨joinSp (allWords lines)⟩ = false := by
    rw [containsArabic]
    show (joinSp (allWords lines)).any isArabicChar = false
    cases hx : (joinSp (allWords lines)).any isArabicChar
    · rfl
    · obtain ⟨c, hc1, hc2⟩ := List.any_eq_true.mp hx
      rw [allWords_no_arabic hc1] at hc2
      simp at hc2
  rw [List.filter_cons, if_pos (by simp [hnoar]), List.filter_nil, normalize_text]
  show (⟨stripC (joinSp [collapseC (joinSp (allWords lines))])⟩ : String) = _
  rw [show joinSp [collapseC (joinSp (allWords lines))] = collapseC (joinSp (allWords lines))
      from rfl]
  rw [collapseC, splitWs_joinSp _ allWords_clean,
    (strip_joinSp_clean (allWords lines) allWords_clean).1]

/-! ### Claim C5 and C6 theorems -/

/-- C5: normalization excludes every line containing a character in
U+0600–U+06FF, whitespace-collapses (with trim) each surviving line, joins
the surviving lines with a single space and trims (the code's
`" ".join(...)` pipeline coincides with this description, stated as
`normalizeSpec`, for every input); the worked example and the two
empty-result cases hold. -/
theorem c5_normalize_matches_spec :
    (∀ lines : List String, normalize lines = normalizeSpec lines) ∧
    normalize [("Hello world"), ("مرحبا")] = ("Hello world") ∧
    normalize ([] : List String) = ("") ∧
    (∀ lines : List String, (∀ l ∈ lines, containsArabic l = true) →
      normalize lines = ("")) := by
  refine ⟨?_, by decide, rfl, ?_⟩
  · intro lines
    rw [normalize, normalize_text, normalizeSpec]
    congr 3
    apply List.map_congr_left
    intro l _
    rw [stripC_collapseRuns]
    rfl
  · intro lines h
    have : lines.filter (fun l => !containsArabic l) = [] := by
      rw [List.filter_eq_nil_iff]
      intro l hl
      simp [h l hl]
    rw [normalize, this]
    rfl

/-- C5 witness: the universally quantified parts of
`c5_normalize_matches_spec` instantiated at concrete inputs, with the
all-Arabic hypothesis discharged on `["مرحبا"]`. -/
theorem c5_witness :
    normalize [("مرحبا")] = ("") ∧ normalize [("Hello world")] = normalizeSpec [("Hello world")] :=
  ⟨c5_normalize_matches_spec.2.2.2 [("مرحبا")] (by decide),
    c5_normalize_matches_spec.1 [("Hello world")]⟩

/-- C6 counterexample: normalization is not idempotent on every line
sequence.  A whitespace-only middle line survives the Arabic filter and
collapses to the empty string, so the single-space join produces two
adjacent spaces, which a second normalization pass collapses. -/
theorem c6_counterexample :
    ¬ (normalize [normalize [("a"), (" "), ("b")]] = normalize [("a"), (" "), ("b")]) := by
  decide

/-- C6 (amended): normalization is idempotent for every line sequence in
which each line that survives the Arabic filter contains at least one
non-whitespace character — in particular for all `text_lines` produced by
the parser, which never contain blank lines. -/
theorem c6_normalize_idempotent (lines : List String)
    (h : ∀ l ∈ lines, containsArabic l = false → ∃ c ∈ l.data, isPyWs c = false) :
    normalize [normalize lines] = normalize lines := by
  have hsurv : ∀ l ∈ lines.filter (fun l => !containsArabic l), splitWs l.data ≠ [] := by
    intro l hl
    rw [List.mem_filter] at hl
    obtain ⟨c, hc1, hc2⟩ := h l hl.1 (by simpa using hl.2)
    intro hnil
    rw [splitWs_eq_nil_iff] at hnil
    rw [hnil c hc1] at hc2
    simp at hc2
  rw [normalize_eq_joinWords hsurv, normalize_canonical_fixed]

/-- C6 witness: idempotence applied to the spec's own example input. -/
theorem c6_witness :
    normalize [normalize [("Hello world"), ("مرحبا")]] = normalize [("Hello world"), ("مرحبا")] :=
  c6_normalize_idempotent [("Hello world"), ("مرحبا")] (by decide)

/-! ### Decimal digits: `Int.repr` inverts through `pyParseInt` -/

theorem not_ws_of_digit {c : Char} (h : isDigitChar c = true) : isPyWs c = false := by
  rw [isDigitChar] at h
  rw [isPyWs]
  have h1 : 48 ≤ c.toNat ∧ c.toNat ≤ 57 := by
    constructor
    · exact Nat.le_of_ble_eq_true (by simpa using (Bool.and_elim_left h))
    · exact Nat.le_of_ble_eq_true (by simpa using (Bool.and_elim_right h))
  simp only [Bool.or_eq_false_iff, decide_eq_false_iff_not]
  omega

theorem digitChar_digit {d : Nat} (h : d < 10) :
    isDigitChar (Nat.digitChar d) = true ∧ digitVal (Nat.digitChar d) = d := by
  interval_cases d <;> exact ⟨by decide, by decide⟩

theorem digitsVal_concat (xs : List Char) (c : Char) :
    digitsVal (xs ++ [c]) = 10 * digitsVal xs + digitVal c := by
  rw [digitsVal, List.foldl_append]
  rfl

theorem myDigits_spec : ∀ (n : Nat), myDigits n ≠ [] ∧
    (∀ c ∈ myDigits n, isDigitChar c = true) ∧ digitsVal (myDigits n) = n := by
  intro n
  induction n using Nat.strong_induction_on with
  | _ n ih =>
    by_cases h : n < 10
    · rw [myDigits, dif_pos h]
      refine ⟨by simp, ?_, ?_⟩
      · intro c hc
        rw [List.mem_singleton] at hc
        subst hc
        exact (digitChar_digit h).1
      · show digitsVal [Nat.digitChar n] = n
        rw [digitsVal]
        simp [digitVal, (digitChar_digit h).2]
        exact (digitChar_digit h).2
    · rw [myDigits, dif_neg h]
      have hdiv : n / 10 < n := Nat.div_lt_self (by omega) (by omega)
      obtain ⟨ih1, ih2, ih3⟩ := ih (n / 10) hdiv
      refine ⟨by simp, ?_, ?_⟩
      · intro c hc
        rcases List.mem_append.mp hc with hc | hc
        · exact ih2 c hc
        · rw [List.mem_singleton] at hc
          subst hc
          exact (digitChar_digit (Nat.mod_lt n (by omega))).1
      · rw [digitsVal_concat, ih3, (digitChar_digit (Nat.mod_lt n (by omega))).2]
        omega

theorem toDigitsCore_eq : ∀ (fuel n : Nat) (ds : List Char), n < fuel →
    Nat.toDigitsCore 10 fuel n ds = myDigits n ++ ds := by
  intro fuel
  induction fuel with
  | zero => intro n ds h; exact absurd h (Nat.not_lt_zero n)
  | succ f ih =>
    intro n ds h
    rw [Nat.toDigitsCore]
    by_cases h10 : n / 10 = 0
    · have hn10 : n < 10 := by
        by_contra hge
        have : 1 ≤ n / 10 := Nat.le_div_iff_mul_le (by omega) |>.mpr (by omega)
        omega
      simp only [h10, if_true]
      rw [myDigits, dif_pos hn10, Nat.mod_eq_of_lt hn10]
      rfl
    · simp only [h10, if_false]
      have hdiv : n / 10 < n := Nat.div_lt_self (by omega) (by omega)
      rw [ih (n / 10) (Nat.digitChar (n % 10) :: ds) (by omega)]
      have h10' : ¬ n < 10 := by
        intro hlt
        exact h10 (Nat.div_eq_of_lt hlt)
      conv_rhs => rw [myDigits, dif_neg h10']
      simp

theorem natRepr_data (n : Nat) : (Nat.repr n).data = myDigits n := by
  rw [Nat.repr, Nat.toDigits, toDigitsCore_eq (n + 1) n [] (Nat.lt_succ_self n)]
  simp [List.asString]

theorem stripC_eq_nil_iff {cs : List Char} :
    stripC cs = [] ↔ ∀ c ∈ cs, isPyWs c = true := by
  constructor
  · intro h c hc
    by_contra hcw
    have hcw' : isPyWs c = false := by
      cases hx : isPyWs c
      · rfl
      · exact absurd hx hcw
    induction cs with
    | nil => simp at hc
    | cons a t ih =>
      by_cases ha : isPyWs a = true
      · rw [stripC_ws_cons ha] at h
        rcases List.mem_cons.mp hc with rfl | hc'
        · rw [ha] at hcw'; simp at hcw'
        · exact ih h hc'
      · have ha' : isPyWs a = false := by
          cases hx : isPyWs a
          · rfl
          · exact absurd hx ha
        have := @stripC_word_append [a] (by simpa using ha') (by simp) t
        rw [List.singleton_append] at this
        rw [this] at h
        simp at h
  · exact stripC_all_ws

theorem stripC_all_digits {cs : List Char} (h : ∀ c ∈ cs, isDigitChar c = true) :
    stripC cs = cs := by
  rw [stripC, dropWhile_all_false (fun c hc => not_ws_of_digit (h c hc)), rstripC,
    dropWhile_all_false (fun c hc => not_ws_of_digit (h c (by simpa using hc)))]
  simp

theorem pyDigitsToInt_digits {ds : List Char} (hne : ds ≠ [])
    (hd : ∀ c ∈ ds, isDigitChar c = true) (neg : Bool) :
    pyDigitsToInt neg ds = some (if neg then -(digitsVal ds : Int) else (digitsVal ds : Int)) := by
  rw [pyDigitsToInt, if_pos]
  rw [Bool.and_eq_true]
  constructor
  · simpa [List.isEmpty_iff] using hne
  · rw [List.all_eq_true]
    exact hd

theorem digit_ne_sign {c : Char} (h : isDigitChar c = true) :
    ¬ (c = '-') ∧ ¬ (c = '+') := by
  constructor
  · intro hc
    rw [hc] at h
    exact absurd h (by decide)
  · intro hc
    rw [hc] at h
    exact absurd h (by decide)

theorem lstripBOM_data_of_head {s : String} {c : Char} {t : List Char}
    (h : s.data = c :: t) (hc : ¬ c = '﻿') : (lstripBOM s).data = s.data := by
  rw [lstripBOM, h, List.dropWhile_cons, if_neg (by simpa using hc)]

theorem pyParseInt_of_digits_data {s : String} (hs : s.data = myDigits n) :
    pyParseInt s = some (n : Int) := by
  obtain ⟨hne, hdig, hval⟩ := myDigits_spec n
  rw [pyParseInt]
  have hstr : stripC s.data = myDigits n := by
    rw [hs]; exact stripC_all_digits hdig
  cases hx : myDigits n with
  | nil => exact absurd hx hne
  | cons c t =>
    have hc : isDigitChar c = true := hdig c (by rw [hx]; simp)
    simp only [hstr, hx, List.head?_cons, List.tail_cons]
    rw [if_neg (by simpa using fun hcm : c = '-' => (digit_ne_sign hc).1 hcm),
      if_neg (by simpa using fun hcm : c = '+' => (digit_ne_sign hc).2 hcm)]
    rw [← hx, pyDigitsToInt_digits hne hdig false, hval]
    simp

theorem pyParseInt_intRepr (i : Int) : pyParseInt (lstripBOM (Int.repr i)) = some i := by
  cases i with
  | ofNat m =>
    have hdata : (Int.repr (Int.ofNat m)).data = myDigits m := by
      rw [Int.repr]
      exact natRepr_data m
    obtain ⟨hne, hdig, _⟩ := myDigits_spec m
    cases hx : myDigits m with
    | nil => exact absurd hx hne
    | cons c t =>
      have hbom : (lstripBOM (Int.repr (Int.ofNat m))).data = (Int.repr (Int.ofNat m)).data := by
        refine lstripBOM_data_of_head (by rw [hdata, hx]) ?_
        intro hcb
        have hc : isDigitChar c = true := hdig c (by rw [hx]; simp)
        rw [hcb] at hc
        exact absurd hc (by decide)
      have : pyParseInt (lstripBOM (Int.repr (Int.ofNat m))) = some ((m : Nat) : Int) := by
        apply pyParseInt_of_digits_data
        rw [hbom, hdata]
      simpa using this
  | negSucc m =>
    have hdata : (Int.repr (Int.negSucc m)).data = '-' :: myDigits (m + 1) := by
      rw [Int.repr]
      show (("-" ++ Nat.repr (m + 1) : String)).data = '-' :: myDigits (m + 1)
      rw [String.data_append, natRepr_data]
      rfl
    obtain ⟨hne, hdig, hval⟩ := myDigits_spec (m + 1)
    have hallnws : ∀ c ∈ '-' :: myDigits (m + 1), isPyWs c = false := by
      intro c hc
      rcases List.mem_cons.mp hc with rfl | hc
      · decide
      · exact not_ws_of_digit (hdig c hc)
    have hbom : (lstripBOM (Int.repr (Int.negSucc m))).data = '-' :: myDigits (m + 1) := by
      rw [lstripBOM_data_of_head hdata (by decide)]
      exact hdata
    rw [pyParseInt]
    have hstr : stripC (lstripBOM (Int.repr (Int.negSucc m))).data = '-' :: myDigits (m + 1) := by
      rw [hbom, stripC, dropWhile_all_false hallnws, rstripC,
        dropWhile_all_false (fun c hc => hallnws c (List.mem_reverse.mp hc))]
      simp
    simp only [hstr, List.head?_cons, List.tail_cons, if_pos]
    rw [pyDigitsToInt_digits hne hdig true, hval]
    simp [Int.negSucc_eq]

theorem blankLine_intRepr (i : Int) : blankLine (Int.repr i) = false := by
  rw [blankLine]
  cases i with
  | ofNat m =>
    have hdata : (Int.repr (Int.ofNat m)).data = myDigits m := by
      rw [Int.repr]; exact natRepr_data m
    obtain ⟨hne, hdig, _⟩ := myDigits_spec m
    rw [hdata, stripC_all_digits hdig]
    simpa [List.isEmpty_iff] using hne
  | negSucc m =>
    have hdata : (Int.repr (Int.negSucc m)).data = '-' :: myDigits (m + 1) := by
      rw [Int.repr]
      show (("-" ++ Nat.repr (m + 1) : String)).data = '-' :: myDigits (m + 1)
      rw [String.data_append, natRepr_data]
      rfl
    obtain ⟨hne, hdig, _⟩ := myDigits_spec (m + 1)
    have hallnws : ∀ c ∈ '-' :: myDigits (m + 1), isPyWs c = false := by
      intro c hc
      rcases List.mem_cons.mp hc with rfl | hc
      · decide
      · exact not_ws_of_digit (hdig c hc)
    rw [hdata, stripC, dropWhile_all_false hallnws, rstripC,
      dropWhile_all_false (fun c hc => hallnws c (List.mem_reverse.mp hc))]
    simp

theorem exists_not_ws_of_stripC_ne_nil {cs : List Char} (h : stripC cs ≠ []) :
    ∃ c ∈ cs, isPyWs c = false := by
  by_contra hall
  push_neg at hall
  apply h
  apply stripC_all_ws
  intro c hc
  cases hx : isPyWs c
  · exact absurd hx (hall c hc)
  · rfl

theorem blankLine_of_pyParseInt {s : String} {i : Int}
    (h : pyParseInt (lstripBOM s) = some i) : blankLine s = false := by
  rw [pyParseInt] at h
  have hne : stripC (lstripBOM s).data ≠ [] := by
    intro hnil
    rw [hnil] at h
    simp [pyDigitsToInt] at h
  obtain ⟨c, hc1, hc2⟩ := exists_not_ws_of_stripC_ne_nil hne
  have hcs : c ∈ s.data := by
    have hsub : ((lstripBOM s).data).Sublist s.data := by
      rw [lstripBOM]
      exact List.dropWhile_sublist _
    exact hsub.mem hc1
  rw [blankLine]
  have hns : stripC s.data ≠ [] := by
    intro hnil
    have := stripC_eq_nil_iff.mp hnil
    rw [this c hcs] at hc2
    simp at hc2
  simpa [List.isEmpty_iff] using hns

/-! ### Parser lemmas: blocks, invariants, and the round trip -/

theorem blankLine_empty : blankLine ("") = true := by decide

theorem parseLoop_push {line : String} (hbl : blankLine line = false)
    (buf : List String) (acc : List Entry) (rest : List String) :
    parseLoop buf acc (line :: rest) = parseLoop (buf ++ [line]) acc rest := by
  cases buf with
  | nil => rw [parseLoop.eq_2, if_neg (by simp [hbl])]
  | cons a b => rw [parseLoop.eq_3, if_neg (by simp [hbl])]

theorem parseLoop_blank_newbuf {line : String} (hbl : blankLine line = true)
    (acc : List Entry) (rest : List String) :
    parseLoop [] acc (line :: rest) = parseLoop [line] acc rest := by
  rw [parseLoop.eq_2, if_pos hbl]

theorem parseLoop_blank_skip {line idxLine : String} (hbl : blankLine line = true)
    (hpi : pyParseInt (lstripBOM idxLine) = none) (bufRest : List String)
    (acc : List Entry) (rest : List String) :
    parseLoop (idxLine :: bufRest) acc (line :: rest) = parseLoop [] acc rest := by
  rw [parseLoop.eq_3, if_pos hbl, hpi]

theorem parseLoop_blank_crash {line idxLine : String} (hbl : blankLine line = true)
    {idx : Int} (hpi : pyParseInt (lstripBOM idxLine) = some idx)
    (acc : List Entry) (rest : List String) :
    parseLoop [idxLine] acc (line :: rest) = none := by
  rw [parseLoop.eq_3, if_pos hbl, hpi]

theorem parseLoop_blank_entry {line idxLine : String} (hbl : blankLine line = true)
    {idx : Int} (hpi : pyParseInt (lstripBOM idxLine) = some idx)
    (ts : String) (textLines : List String) (acc : List Entry) (rest : List String) :
    parseLoop (idxLine :: ts :: textLines) acc (line :: rest)
      = parseLoop [] (acc ++ [mkEntry idx ts textLines]) rest := by
  rw [parseLoop.eq_3, if_pos hbl, hpi]

theorem parseLoop_nonblank : ∀ (tls : List String), (∀ l ∈ tls, blankLine l = false) →
    ∀ (buf : List String) (acc : List Entry) (rest : List String),
      parseLoop buf acc (tls ++ rest) = parseLoop (buf ++ tls) acc rest := by
  intro tls
  induction tls with
  | nil => intro _ buf acc rest; simp
  | cons l t ih =>
    intro h buf acc rest
    rw [List.cons_append, parseLoop_push (h l (by simp))]
    rw [ih (fun x hx => h x (by simp [hx])) (buf ++ [l]) acc rest]
    simp

theorem goodEntry_mkEntry {idx : Int} {ts : String} {tls : List String}
    (hts : blankLine ts = false) (htl : ∀ l ∈ tls, blankLine l = false) :
    GoodEntry (mkEntry idx ts tls) :=
  ⟨hts, htl, rfl⟩

theorem parseLoop_entry_block (e : Entry) (he : GoodEntry e) (acc : List Entry)
    (rest : List String) :
    parseLoop [] acc (Int.repr e.index :: e.timestamp :: (e.text_lines ++ [("")]) ++ rest)
      = parseLoop [] (acc ++ [e]) rest := by
  obtain ⟨hts, htl, hnorm⟩ := he
  have hshape : (Int.repr e.index :: e.timestamp :: (e.text_lines ++ [("")])) ++ rest
      = Int.repr e.index :: e.timestamp :: (e.text_lines ++ ([("")] ++ rest)) := by
    simp
  rw [hshape, parseLoop_push (blankLine_intRepr e.index), parseLoop_push hts]
  have hb2 : (([] : List String) ++ [Int.repr e.index]) ++ [e.timestamp]
      = [Int.repr e.index, e.timestamp] := rfl
  rw [hb2, parseLoop_nonblank e.text_lines htl _ acc _, List.singleton_append]
  have hbuf : [Int.repr e.index, e.timestamp] ++ e.text_lines
      = Int.repr e.index :: (e.timestamp :: e.text_lines) := by simp
  rw [hbuf, parseLoop_blank_entry blankLine_empty (pyParseInt_intRepr e.index)]
  have hmk : mkEntry e.index e.timestamp e.text_lines = e := by
    cases e with
    | mk i t tl n =>
      simp only at hnorm
      simp only [mkEntry]
      rw [hnorm]
  rw [hmk]

theorem parse_write_aux : ∀ (es : List Entry), (∀ e ∈ es, GoodEntry e) →
    ∀ (acc : List Entry), parseLoop [] acc (write_srt es ++ [("")]) = some (acc ++ es) := by
  intro es
  induction es with
  | nil =>
    intro _ acc
    rw [write_srt, List.nil_append, parseLoop_blank_newbuf blankLine_empty, parseLoop.eq_1]
    simp
  | cons e t ih =>
    intro h acc
    have happ : write_srt (e :: t) ++ [("")]
        = Int.repr e.index :: e.timestamp :: (e.text_lines ++ [("")]) ++ (write_srt t ++ [("")]) := by
      rw [write_srt]
      simp
    rw [happ, parseLoop_entry_block e (h e (by simp)) acc _,
      ih (fun x hx => h x (by simp [hx])) (acc ++ [e])]
    simp

theorem parse_srt_write {es : List Entry} (h : ∀ e ∈ es, GoodEntry e) :
    parse_srt (write_srt es) = some es := by
  rw [parse_srt, parse_write_aux es h []]
  rfl

theorem parseLoop_good : ∀ (rest buf : List String) (acc es : List Entry),
    parseLoop buf acc rest = some es → (∀ l ∈ buf.tail, blankLine l = false) →
    (∀ e ∈ acc, GoodEntry e) → ∀ e ∈ es, GoodEntry e := by
  intro rest
  induction rest with
  | nil =>
    intro buf acc es h _ hacc
    rw [parseLoop] at h
    injection h with h
    subst h
    exact hacc
  | cons line rest ih =>
    intro buf acc es h hbuf hacc
    by_cases hbl : blankLine line = true
    · cases buf with
      | nil =>
        rw [parseLoop_blank_newbuf hbl] at h
        exact ih [line] acc es h (by simp) hacc
      | cons idxLine bufRest =>
        cases hpi : pyParseInt (lstripBOM idxLine) with
        | none =>
          rw [parseLoop_blank_skip hbl hpi] at h
          exact ih [] acc es h (by simp) hacc
        | some idx =>
          cases bufRest with
          | nil =>
            rw [parseLoop_blank_crash hbl hpi] at h
            simp at h
          | cons ts textLines =>
            rw [parseLoop_blank_entry hbl hpi] at h
            refine ih [] (acc ++ [mkEntry idx ts textLines]) es h (by simp) ?_
            intro x hx
            rcases List.mem_append.mp hx with hx | hx
            · exact hacc x hx
            · rw [List.mem_singleton] at hx
              subst hx
              refine goodEntry_mkEntry (hbuf ts (by simp)) ?_
              intro l hl
              exact hbuf l (by simp [hl])
    · have hbl' : blankLine line = false := by
        cases hx : blankLine line
        · rfl
        · exact absurd hx hbl
      rw [parseLoop_push hbl'] at h
      refine ih (buf ++ [line]) acc es h ?_ hacc
      intro l hl
      cases buf with
      | nil =>
        simp at hl
      | cons b0 brest =>
        rw [List.cons_append, List.tail_cons] at hl
        rcases List.mem_append.mp hl with hl | hl
        · exact hbuf l (by simpa using hl)
        · rw [List.mem_singleton] at hl
          subst hl
          exact hbl'

theorem parse_srt_good {lines : List String} {es : List Entry}
    (h : parse_srt lines = some es) : ∀ e ∈ es, GoodEntry e := by
  rw [parse_srt] at h
  exact parseLoop_good (lines ++ [("")]) [] [] es h (by simp) (by simp)

theorem parse_roundtrip {lines : List String} {es : List Entry}
    (h : parse_srt lines = some es) : parse_srt (write_srt es) = some es :=
  parse_srt_write (parse_srt_good h)

theorem timePart_has_digit {cs : List Char} (h : timePart cs = true) :
    ∃ c ∈ cs, isDigitChar c = true := by
  unfold timePart at h
  split at h
  · rename_i h1 h2 c1 m1 m2 c2 s1 s2 cm t1 t2 t3
    simp only [Bool.and_eq_true] at h
    exact ⟨h1, by simp, by tauto⟩
  · simp at h

theorem blankLine_of_matchesTsLine {s : String} (h : matchesTsLine s = true) :
    blankLine s = false := by
  simp only [matchesTsLine, Bool.and_eq_true] at h
  obtain ⟨c, hc1, hc2⟩ := timePart_has_digit h.1
  have hcs : c ∈ s.data := List.mem_of_mem_take hc1
  rw [blankLine]
  have hns : stripC s.data ≠ [] := by
    intro hnil
    have := stripC_eq_nil_iff.mp hnil c hcs
    rw [not_ws_of_digit hc2] at this
    simp at this
  simpa [List.isEmpty_iff] using hns

theorem parse_valid_block (b : List String) (hb : validBlock b = true)
    (acc : List Entry) (rest : List String) :
    parseLoop [] acc (b ++ [("")] ++ rest) = parseLoop [] (acc ++ [entryOfBlock b]) rest := by
  cases b with
  | nil => simp [validBlock] at hb
  | cons idxLine b1 =>
    cases b1 with
    | nil => simp [validBlock] at hb
    | cons tsLine textLines =>
      simp only [validBlock, Bool.and_eq_true] at hb
      obtain ⟨⟨hidx, hts⟩, htl⟩ := hb
      obtain ⟨i, hi⟩ := Option.isSome_iff_exists.mp hidx
      have htl' : ∀ l ∈ textLines, blankLine l = false := by
        intro l hl
        have := List.all_eq_true.mp htl l hl
        simpa using this
      have hshape : (idxLine :: tsLine :: textLines) ++ [("")] ++ rest
          = idxLine :: tsLine :: (textLines ++ ([("")] ++ rest)) := by
        simp
      rw [hshape, parseLoop_push (blankLine_of_pyParseInt hi),
        parseLoop_push (blankLine_of_matchesTsLine hts)]
      have hb2 : (([] : List String) ++ [idxLine]) ++ [tsLine] = [idxLine, tsLine] := rfl
      rw [hb2, parseLoop_nonblank textLines htl' _ acc _, List.singleton_append]
      have hbuf : [idxLine, tsLine] ++ textLines = idxLine :: (tsLine :: textLines) := by simp
      rw [hbuf, parseLoop_blank_entry blankLine_empty hi]
      have hent : entryOfBlock (idxLine :: tsLine :: textLines) = mkEntry i tsLine textLines := by
        rw [entryOfBlock, hi]
        rfl
      rw [hent]

theorem goodEntry_entryOfBlock {b : List String} (hb : validBlock b = true) :
    GoodEntry (entryOfBlock b) := by
  cases b with
  | nil => simp [validBlock] at hb
  | cons idxLine b1 =>
    cases b1 with
    | nil => simp [validBlock] at hb
    | cons tsLine textLines =>
      simp only [validBlock, Bool.and_eq_true] at hb
      obtain ⟨⟨_, hts⟩, htl⟩ := hb
      refine goodEntry_mkEntry (blankLine_of_matchesTsLine hts) ?_
      intro l hl
      have := List.all_eq_true.mp htl l hl
      simpa using this

theorem parse_joinBlocks : ∀ (blocks : List (List String)),
    (∀ b ∈ blocks, validBlock b = true) → ∀ (acc : List Entry),
    parseLoop [] acc (joinBlocks blocks ++ [("")]) = some (acc ++ blocks.map entryOfBlock) := by
  intro blocks
  induction blocks with
  | nil =>
    intro _ acc
    rw [joinBlocks, List.nil_append, parseLoop, if_pos blankLine_empty, parseLoop]
    simp
  | cons b bs ih =>
    intro h acc
    cases bs with
    | nil =>
      have : joinBlocks [b] ++ [("")] = b ++ [("")] ++ [] := by
        rw [joinBlocks]
        simp
      rw [this, parse_valid_block b (h b (by simp)) acc [], parseLoop]
      simp
    | cons c cs =>
      have : joinBlocks (b :: c :: cs) ++ [("")]
          = b ++ [("")] ++ (joinBlocks (c :: cs) ++ [("")]) := by
        rw [joinBlocks]
        simp
      rw [this, parse_valid_block b (h b (by simp)) acc _,
        ih (fun x hx => h x (by simp [hx])) (acc ++ [entryOfBlock b])]
      simp

/-! ### Claim C7, C10, C1 theorems -/

/-- C7: for every well-formed input (each block an integer index line, a
strict-pattern timestamp line, then non-blank text lines, blocks separated
by blank lines), parsing succeeds and `parse (serialize (parse text)) =
parse text`, with index, timestamp, and text lines preserved exactly. -/
theorem c7_parse_serialize_roundtrip (lines : List String) (h : WellFormed lines) :
    ∃ es, parse_srt lines = some es ∧ parse_srt (write_srt es) = some es := by
  obtain ⟨blocks, rfl, hb⟩ := h
  have h1 : parse_srt (joinBlocks blocks) = some (blocks.map entryOfBlock) := by
    rw [parse_srt, parse_joinBlocks blocks hb []]
    rfl
  refine ⟨blocks.map entryOfBlock, h1, parse_srt_write ?_⟩
  intro e he
  rw [List.mem_map] at he
  obtain ⟨b, hbm, rfl⟩ := he
  exact goodEntry_entryOfBlock (hb b hbm)

/-- C7 witness: the round trip instantiated on a concrete well-formed
two-block file. -/
theorem c7_witness :
    ∃ es, parse_srt [("1"), ("00:00:01,000 --> 00:00:02,000"), ("Hello"), (""),
        ("2"), ("00:00:03,000 --> 00:00:04,000"), ("World")] = some es ∧
      parse_srt (write_srt es) = some es :=
  c7_parse_serialize_roundtrip _
    ⟨[[("1"), ("00:00:01,000 --> 00:00:02,000"), ("Hello")],
      [("2"), ("00:00:03,000 --> 00:00:04,000"), ("World")]], rfl, by decide⟩

theorem parseLoop_congr_tail : ∀ (l : List String) (buf : List String) (acc : List Entry)
    {r1 r2 : List String},
    (∀ (buf' : List String) (acc' : List Entry), parseLoop buf' acc' r1 = parseLoop buf' acc' r2) →
    parseLoop buf acc (l ++ r1) = parseLoop buf acc (l ++ r2) := by
  intro l
  induction l with
  | nil => intro buf acc r1 r2 h; exact h buf acc
  | cons line t ih =>
    intro buf acc r1 r2 h
    rw [List.cons_append, List.cons_append]
    by_cases hbl : blankLine line = true
    · cases buf with
      | nil =>
        rw [parseLoop_blank_newbuf hbl, parseLoop_blank_newbuf hbl]
        exact ih _ _ h
      | cons idxLine bufRest =>
        cases hpi : pyParseInt (lstripBOM idxLine) with
        | none =>
          rw [parseLoop_blank_skip hbl hpi, parseLoop_blank_skip hbl hpi]
          exact ih _ _ h
        | some idx =>
          cases bufRest with
          | nil => rw [parseLoop_blank_crash hbl hpi, parseLoop_blank_crash hbl hpi]
          | cons ts textLines =>
            rw [parseLoop_blank_entry hbl hpi, parseLoop_blank_entry hbl hpi]
            exact ih _ _ h
    · have hbl' : blankLine line = false := by
        cases hx : blankLine line
        · rfl
        · exact absurd hx hbl
      rw [parseLoop_push hbl', parseLoop_push hbl']
      exact ih _ _ h

theorem parseLoop_blank_sentinel : ∀ (buf : List String) (acc : List Entry),
    parseLoop buf acc [("")] = parseLoop buf acc [(""), ("")] := by
  intro buf acc
  have hpe : pyParseInt (lstripBOM ("")) = none := by decide
  cases buf with
  | nil =>
    rw [parseLoop_blank_newbuf blankLine_empty, parseLoop.eq_1,
      parseLoop_blank_newbuf blankLine_empty, parseLoop_blank_skip blankLine_empty hpe,
      parseLoop.eq_1]
  | cons idxLine bufRest =>
    cases hpi : pyParseInt (lstripBOM idxLine) with
    | none =>
      rw [parseLoop_blank_skip blankLine_empty hpi, parseLoop.eq_1,
        parseLoop_blank_skip blankLine_empty hpi, parseLoop_blank_newbuf blankLine_empty,
        parseLoop.eq_1]
    | some idx =>
      cases bufRest with
      | nil =>
        rw [parseLoop_blank_crash blankLine_empty hpi, parseLoop_blank_crash blankLine_empty hpi]
      | cons ts textLines =>
        rw [parseLoop_blank_entry blankLine_empty hpi, parseLoop.eq_1,
          parseLoop_blank_entry blankLine_empty hpi, parseLoop_blank_newbuf blankLine_empty,
          parseLoop.eq_1]

/-- C10: the parser tolerates a missing final blank line — for every input,
parsing yields exactly the same entries as parsing the input with one more
trailing blank line appended (the final block is never silently dropped);
proved unconditionally, which covers the claim's case. -/
theorem c10_missing_final_blank (lines : List String) :
    parse_srt lines = parse_srt (lines ++ [("")]) := by
  rw [parse_srt, parse_srt, List.append_assoc]
  exact parseLoop_congr_tail lines [] [] (fun buf' acc' => parseLoop_blank_sentinel buf' acc')

/-- C1 evidence: the resynchronization parser is not total and performs no
strict-pattern validation.  A block consisting of only an index line makes
the Python code raise `IndexError` at `buf[1]` (modelled by `none`), and a
block whose second line fails `TIMESTAMP_RE` is kept verbatim — not
skipped, with no diagnostic. -/
theorem c1_crash_and_no_validation :
    parse_srt [("1")] = none ∧
    matchesTsLine ("not a timestamp") = false ∧
    parse_srt [("1"), ("not a timestamp"), ("text")]
      = some [{ index := 1, timestamp := ("not a timestamp"),
                text_lines := [("text")], norm_text := ("text") }] := by
  refine ⟨by decide, by decide, by decide⟩

/-! ### Resolver lemmas (timestamp transplantation) -/

theorem alistGet_cons {α : Type} (k : String) (v : α) (m : List (String × α)) (key : String) :
    alistGet ((k, v) :: m) key = if k = key then some v else alistGet m key := rfl

theorem resolveEntries_cons_noMatch {m : List (String × List String)} {e : Entry}
    (h : alistGet m e.norm_text = none ∨ alistGet m e.norm_text = some [])
    (file : String) (es : List Entry) :
    resolveEntries file m (e :: es)
      = (e :: (resolveEntries file m es).1, (resolveEntries file m es).2.1,
         Diag.noMatch file e.index (pyShorten e.norm_text 30) :: (resolveEntries file m es).2.2) := by
  rw [resolveEntries.eq_2]
  rcases h with h | h
  · rw [h]
  · rw [h]

theorem resolveEntries_cons_emptyText {m : List (String × List String)} {e : Entry}
    {t : String} {restTs : List String}
    (h : alistGet m e.norm_text = some (t :: restTs)) (he : e.norm_text = "")
    (file : String) (es : List Entry) :
    resolveEntries file m (e :: es)
      = (e :: (resolveEntries file m es).1, (resolveEntries file m es).2.1,
         Diag.noMatch file e.index (pyShorten e.norm_text 30) :: (resolveEntries file m es).2.2) := by
  rw [resolveEntries.eq_2, h]
  show (if e.norm_text = "" then _ else _) = _
  rw [if_pos he]

theorem resolveEntries_cons_pop {m : List (String × List String)} {e : Entry}
    {t : String} {restTs : List String}
    (h : alistGet m e.norm_text = some (t :: restTs)) (he : ¬ e.norm_text = "")
    (file : String) (es : List Entry) :
    resolveEntries file m (e :: es)
      = ({ e with timestamp := t }
           :: (resolveEntries file (alistSet m e.norm_text restTs) es).1,
         (resolveEntries file (alistSet m e.norm_text restTs) es).2.1,
         if restTs.isEmpty then (resolveEntries file (alistSet m e.norm_text restTs) es).2.2
         else Diag.duplicate file e.index
           :: (resolveEntries file (alistSet m e.norm_text restTs) es).2.2) := by
  rw [resolveEntries.eq_2, h]
  show (if e.norm_text = "" then _ else _) = _
  rw [if_neg he]

/-! ### Claim C3 theorem -/

/-- C3: an old-file entry whose normalized text is empty, or absent from
the map, or whose timestamp list is exhausted, is left exactly as parsed
(the whole entry unchanged), a `noMatch` diagnostic naming the file, the
entry index, and the shortened text preview is emitted, and resolution
continues on the remaining entries with the map unchanged (the resolver is
total, so the run completes normally). -/
theorem c3_unmatched_entry_preserved (file : String) (m : List (String × List String))
    (e : Entry) (es : List Entry)
    (h : e.norm_text = "" ∨ alistGet m e.norm_text = none ∨ alistGet m e.norm_text = some []) :
    resolveEntries file m (e :: es)
      = (e :: (resolveEntries file m es).1, (resolveEntries file m es).2.1,
         Diag.noMatch file e.index (pyShorten e.norm_text 30) :: (resolveEntries file m es).2.2) := by
  rcases h with h | h | h
  · cases hl : alistGet m e.norm_text with
    | none => exact resolveEntries_cons_noMatch (Or.inl hl) file es
    | some l =>
      cases l with
      | nil => exact resolveEntries_cons_noMatch (Or.inr hl) file es
      | cons t restTs => exact resolveEntries_cons_emptyText hl h file es
  · exact resolveEntries_cons_noMatch (Or.inl h) file es
  · exact resolveEntries_cons_noMatch (Or.inr h) file es

/-- C3 witness: an entry whose text has no key in an empty map keeps its
timestamp and produces the diagnostic, at concrete inputs. -/
theorem c3_witness :
    resolveEntries ("old.srt") []
        [{ index := 7, timestamp := ("00:00:09,999 --> 00:00:10,999"),
           text_lines := [("unmatched line")], norm_text := ("unmatched line") }]
      = ([{ index := 7, timestamp := ("00:00:09,999 --> 00:00:10,999"),
            text_lines := [("unmatched line")], norm_text := ("unmatched line") }], [],
         [Diag.noMatch ("old.srt") 7 ("unmatched line")]) := by
  rw [c3_unmatched_entry_preserved ("old.srt") []
      { index := 7, timestamp := ("00:00:09,999 --> 00:00:10,999"),
        text_lines := [("unmatched line")], norm_text := ("unmatched line") } []
      (Or.inr (Or.inl rfl))]
  decide

/-! ### Claim C4 theorem -/

theorem resolveEntries_zip : ∀ (olds : List Entry) (m : List (String × List String))
    (file : String), ∃ ts : List String, ts.length = olds.length ∧
    (resolveEntries file m olds).1
      = (olds.zip ts).map (fun p => { p.1 with timestamp := p.2 }) := by
  intro olds
  induction olds with
  | nil => exact fun m file => ⟨[], rfl, rfl⟩
  | cons e es ih =>
    intro m file
    have heta : ∀ x : String, ({ e with timestamp := x } : Entry).timestamp = x := fun _ => rfl
    cases hl : alistGet m e.norm_text with
    | none =>
      obtain ⟨ts, hlen, hts⟩ := ih m file
      refine ⟨e.timestamp :: ts, by simp [hlen], ?_⟩
      rw [resolveEntries_cons_noMatch (Or.inl hl) file es, List.zip_cons_cons, List.map_cons, hts]
    | some l =>
      cases l with
      | nil =>
        obtain ⟨ts, hlen, hts⟩ := ih m file
        refine ⟨e.timestamp :: ts, by simp [hlen], ?_⟩
        rw [resolveEntries_cons_noMatch (Or.inr hl) file es, List.zip_cons_cons, List.map_cons,
          hts]
      | cons t restTs =>
        by_cases he : e.norm_text = ""
        · obtain ⟨ts, hlen, hts⟩ := ih m file
          refine ⟨e.timestamp :: ts, by simp [hlen], ?_⟩
          rw [resolveEntries_cons_emptyText hl he file es, List.zip_cons_cons, List.map_cons,
            hts]
        · obtain ⟨ts, hlen, hts⟩ := ih (alistSet m e.norm_text restTs) file
          refine ⟨t :: ts, by simp [hlen], ?_⟩
          rw [resolveEntries_cons_pop hl he file es, List.zip_cons_cons, List.map_cons, hts]

theorem zip_update_proj : ∀ (olds : List Entry) (ts : List String), ts.length = olds.length →
    ((olds.zip ts).map (fun p => { p.1 with timestamp := p.2 })).map
        (fun e => (e.index, e.text_lines))
      = olds.map (fun e => (e.index, e.text_lines)) := by
  intro olds
  induction olds with
  | nil => intro ts _; simp
  | cons e es ih =>
    intro ts hlen
    cases ts with
    | nil => simp at hlen
    | cons x ts' =>
      rw [List.zip_cons_cons, List.map_cons, List.map_cons, List.map_cons,
        ih ts' (by simpa using hlen)]

theorem write_srt_zip : ∀ (olds : List Entry) (ts : List String), ts.length = olds.length →
    write_srt ((olds.zip ts).map (fun p => { p.1 with timestamp := p.2 }))
      = ((olds.zip ts).map
          (fun p => Int.repr p.1.index :: p.2 :: (p.1.text_lines ++ [("")]))).flatten := by
  intro olds
  induction olds with
  | nil => intro ts _; simp [write_srt]
  | cons e es ih =>
    intro ts hlen
    cases ts with
    | nil => simp at hlen
    | cons x ts' =>
      rw [List.zip_cons_cons, List.map_cons, write_srt, List.map_cons, List.flatten_cons,
        ih ts' (by simpa using hlen)]
      simp

/-- C4: the resynchronization step may rewrite only the timestamp of each
entry — for every map and old-entry list, the resolver's output, as
serialized by the writer, consists of exactly the parsed entries in their
original order with the original index and text lines and only the
timestamp field possibly replaced; no entry is reordered, inserted, or
dropped. -/
theorem c4_only_timestamps_rewritten (file : String) (m : List (String × List String))
    (olds : List Entry) :
    ((resolveEntries file m olds).1.map (fun e => (e.index, e.text_lines))
        = olds.map (fun e => (e.index, e.text_lines))) ∧
    (resolveEntries file m olds).1.length = olds.length ∧
    ∃ ts : List String, ts.length = olds.length ∧
      write_srt (resolveEntries file m olds).1
        = ((olds.zip ts).map
            (fun p => Int.repr p.1.index :: p.2 :: (p.1.text_lines ++ [("")]))).flatten := by
  obtain ⟨ts, hlen, hts⟩ := resolveEntries_zip olds m file
  refine ⟨?_, ?_, ts, hlen, ?_⟩
  · rw [hts, zip_update_proj olds ts hlen]
  · rw [hts]
    simp [List.length_zip, hlen]
  · rw [hts, write_srt_zip olds ts hlen]

/-! ### Claim C2 theorem -/

/-- C2: when the new file holds two entries with the same non-empty
normalized text, carrying timestamps `T1` then `T2` in file order, and the
old file holds two entries with that same normalized text, the resolver
assigns `T1` to the first old entry and `T2` to the second (strict FIFO),
drains the map's list, and emits a duplicate-ambiguity warning (for the
first assignment, where more than one timestamp was still available). -/
theorem c2_fifo_duplicates (file t T1 T2 : String) (n1 n2 e1 e2 : Entry)
    (ht : ¬ t = "") (hn1 : n1.norm_text = t) (hn2 : n2.norm_text = t)
    (hT1 : n1.timestamp = T1) (hT2 : n2.timestamp = T2)
    (he1 : e1.norm_text = t) (he2 : e2.norm_text = t) :
    resolveEntries file (buildTsMap [n1, n2]) [e1, e2]
      = ([{ e1 with timestamp := T1 }, { e2 with timestamp := T2 }], [(t, [])],
         [Diag.duplicate file e1.index]) := by
  have hm : buildTsMap [n1, n2] = [(t, [T1, T2])] := by
    rw [buildTsMap, List.foldl_cons, List.foldl_cons, List.foldl_nil,
      if_neg (by rw [hn2]; exact ht), if_neg (by rw [hn1]; exact ht), hn1, hT1, hn2, hT2]
    rw [addTs, addTs, if_pos rfl]
    rfl
  have hl1 : alistGet (buildTsMap [n1, n2]) e1.norm_text = some (T1 :: [T2]) := by
    rw [hm, he1, alistGet_cons, if_pos rfl]
  rw [resolveEntries_cons_pop hl1 (by rw [he1]; exact ht) file [e2]]
  have hset1 : alistSet (buildTsMap [n1, n2]) e1.norm_text [T2] = [(t, [T2])] := by
    rw [hm, he1, alistSet, if_pos rfl]
  rw [hset1]
  have hl2 : alistGet [(t, [T2])] e2.norm_text = some (T2 :: []) := by
    rw [he2, alistGet_cons, if_pos rfl]
  rw [resolveEntries_cons_pop hl2 (by rw [he2]; exact ht) file []]
  have hset2 : alistSet [(t, [T2])] e2.norm_text [] = [(t, [])] := by
    rw [he2, alistSet, if_pos rfl]
  rw [hset2, resolveEntries.eq_1]
  rfl

/-- C2 witness: the FIFO assignment on a concrete pair of duplicated
"hello" entries, with all hypotheses discharged by evaluation. -/
theorem c2_witness :
    resolveEntries ("film.srt")
        (buildTsMap
          [{ index := 1, timestamp := ("00:00:01,000 --> 00:00:02,000"),
             text_lines := [("hello")], norm_text := ("hello") },
           { index := 2, timestamp := ("00:00:03,000 --> 00:00:04,000"),
             text_lines := [("hello")], norm_text := ("hello") }])
        [{ index := 1, timestamp := ("00:00:09,999 --> 00:00:10,999"),
           text_lines := [("hello"), ("مرحبا")], norm_text := ("hello") },
         { index := 2, timestamp := ("00:00:11,000 --> 00:00:12,000"),
           text_lines := [("hello")], norm_text := ("hello") }]
      = ([{ index := 1, timestamp := ("00:00:01,000 --> 00:00:02,000"),
            text_lines := [("hello"), ("مرحبا")], norm_text := ("hello") },
          { index := 2, timestamp := ("00:00:03,000 --> 00:00:04,000"),
            text_lines := [("hello")], norm_text := ("hello") }], [(("hello"), [])],
         [Diag.duplicate ("film.srt") 1]) :=
  c2_fifo_duplicates ("film.srt") ("hello")
    ("00:00:01,000 --> 00:00:02,000") ("00:00:03,000 --> 00:00:04,000")
    _ _ _ _ (by decide) rfl rfl rfl rfl rfl rfl

/-! ### Matcher lemmas (key-based file pairing) -/

theorem alistGet_set_self {α : Type} : ∀ (m : List (String × α)) (k : String) (v : α),
    alistGet (alistSet m k v) k = some v := by
  intro m k v
  induction m with
  | nil => rw [alistSet, alistGet_cons, if_pos rfl]
  | cons p m ih =>
    cases p with
    | mk k0 v0 =>
      by_cases h : k0 = k
      · rw [alistSet, if_pos h, alistGet_cons, if_pos h]
      · rw [alistSet, if_neg h, alistGet_cons, if_neg h]
        exact ih

theorem alistGet_set_ne {α : Type} : ∀ (m : List (String × α)) {k k' : String}
    (_ : ¬ k = k') (v : α), alistGet (alistSet m k v) k' = alistGet m k' := by
  intro m k k' h v
  induction m with
  | nil => rw [alistSet, alistGet_cons, if_neg h, alistGet]
  | cons p m ih =>
    cases p with
    | mk k0 v0 =>
      by_cases h0 : k0 = k
      · rw [alistSet, if_pos h0, alistGet_cons, alistGet_cons,
          if_neg (by rw [h0]; exact h), if_neg (by rw [h0]; exact h)]
      · rw [alistSet, if_neg h0, alistGet_cons, alistGet_cons]
        by_cases h1 : k0 = k'
        · rw [if_pos h1, if_pos h1]
        · rw [if_neg h1, if_neg h1]
          exact ih

theorem alistHas_set_mono {α : Type} (m : List (String × α)) (k k' : String) (v : α)
    (h : alistHas m k' = true) : alistHas (alistSet m k v) k' = true := by
  by_cases hk : k = k'
  · subst hk
    rw [alistHas, alistGet_set_self]
    rfl
  · rw [alistHas, alistGet_set_ne m hk v]
    exact h

theorem buildNewMapGo_append : ∀ (a : List (String × List String))
    (m : List (String × (String × List String))) (ws : List (String × String))
    (b : List (String × List String)),
    buildNewMapGo m ws (a ++ b)
      = buildNewMapGo (buildNewMapGo m ws a).1 (buildNewMapGo m ws a).2 b := by
  intro a
  induction a with
  | nil => intro m ws b; rfl
  | cons f fs ih =>
    intro m ws b
    rw [List.cons_append, buildNewMapGo.eq_2, buildNewMapGo.eq_2, ih]

theorem buildNewMapGo_get_none : ∀ (fs : List (String × List String))
    (m : List (String × (String × List String))) (ws : List (String × String)) (k : String),
    (∀ f ∈ fs, ¬ make_key f.1 = k) →
    alistGet (buildNewMapGo m ws fs).1 k = alistGet m k := by
  intro fs
  induction fs with
  | nil => intro m ws k _; rfl
  | cons f fs ih =>
    intro m ws k h
    rw [buildNewMapGo.eq_2, ih _ _ _ (fun g hg => h g (by simp [hg])),
      alistGet_set_ne m (h f (by simp)) f]

theorem buildNewMapGo_has_mono : ∀ (fs : List (String × List String))
    (m : List (String × (String × List String))) (ws : List (String × String)) (k : String),
    alistHas m k = true → alistHas (buildNewMapGo m ws fs).1 k = true := by
  intro fs
  induction fs with
  | nil => intro m ws k h; exact h
  | cons f fs ih =>
    intro m ws k h
    rw [buildNewMapGo.eq_2]
    exact ih _ _ _ (alistHas_set_mono m _ k f h)

theorem buildNewMapGo_warns_mono : ∀ (fs : List (String × List String))
    (m : List (String × (String × List String))) (ws : List (String × String)),
    ∃ extra, (buildNewMapGo m ws fs).2 = ws ++ extra := by
  intro fs
  induction fs with
  | nil =>
    intro m ws
    exact ⟨[], by rw [buildNewMapGo.eq_1]; simp⟩
  | cons f fs ih =>
    intro m ws
    rw [buildNewMapGo.eq_2]
    by_cases h : alistHas m (make_key f.1) = true
    · rw [if_pos h]
      obtain ⟨extra, hx⟩ := ih (alistSet m (make_key f.1) f) (ws ++ [(make_key f.1, f.1)])
      exact ⟨(make_key f.1, f.1) :: extra, by rw [hx]; simp⟩
    · rw [if_neg h]
      exact ih _ ws

/-! ### Claim C8 theorem -/

/-- C8: when two files of the new directory share the same 15-character
name key (with no later file also using that key), the matcher's map holds
exactly the later-enumerated file under that key and a collision warning is
emitted; the whole construction is a pure function of the enumeration
order, hence deterministic. -/
theorem c8_key_collision (l1 l2 l3 : List (String × List String))
    (f1 f2 : String × List String)
    (hk : make_key f1.1 = make_key f2.1)
    (h3 : ∀ g ∈ l3, ¬ make_key g.1 = make_key f2.1) :
    alistGet (buildNewMap (l1 ++ f1 :: l2 ++ f2 :: l3)).1 (make_key f2.1) = some f2 ∧
    (buildNewMap (l1 ++ f1 :: l2 ++ f2 :: l3)).2 ≠ [] := by
  have hsplit : l1 ++ f1 :: l2 ++ f2 :: l3 = l1 ++ ((f1 :: l2) ++ (f2 :: l3)) := by simp
  rw [buildNewMap, hsplit, buildNewMapGo_append, buildNewMapGo_append]
  set m1 : List (String × (String × List String)) := (buildNewMapGo [] [] l1).1 with hm1
  set ws1 : List (String × String) := (buildNewMapGo [] [] l1).2 with hws1
  have hstep1 : buildNewMapGo m1 ws1 (f1 :: l2)
      = buildNewMapGo (alistSet m1 (make_key f1.1) f1)
          (if alistHas m1 (make_key f1.1) = true then ws1 ++ [(make_key f1.1, f1.1)] else ws1)
          l2 := buildNewMapGo.eq_2 m1 ws1 f1 l2
  have hhas2 : alistHas (buildNewMapGo m1 ws1 (f1 :: l2)).1 (make_key f2.1) = true := by
    rw [hstep1]
    apply buildNewMapGo_has_mono
    rw [← hk, alistHas, alistGet_set_self]
    rfl
  constructor
  · rw [buildNewMapGo.eq_2, buildNewMapGo_get_none l3 _ _ _ h3, alistGet_set_self]
  · rw [buildNewMapGo.eq_2, if_pos hhas2]
    obtain ⟨extra, hx⟩ := buildNewMapGo_warns_mono l3
      (alistSet (buildNewMapGo m1 ws1 (f1 :: l2)).1 (make_key f2.1) f2)
      ((buildNewMapGo m1 ws1 (f1 :: l2)).2 ++ [(make_key f2.1, f2.1)])
    rw [hx]
    simp

/-- C8 witness: two concrete file names sharing the prefix
`movie_episode_0` collide; the map keeps the later file and a warning is
present. -/
theorem c8_witness :
    alistGet (buildNewMap [(("movie_episode_01_v1.srt"), []),
        (("movie_episode_01_v2.srt"), [])]).1 (make_key ("movie_episode_01_v2.srt"))
      = some (("movie_episode_01_v2.srt"), []) ∧
    (buildNewMap [(("movie_episode_01_v1.srt"), []), (("movie_episode_01_v2.srt"), [])]).2 ≠ [] :=
  c8_key_collision [] [] [] (("movie_episode_01_v1.srt"), [])
    (("movie_episode_01_v2.srt"), []) (by decide) (by simp)

/-! ### Main-run lemmas and claim C9 -/

theorem alistGet_set_cases {α : Type} : ∀ (m : List (String × α)) (k' k : String) (v' v : α),
    alistGet (alistSet m k' v') k = some v → v = v' ∨ alistGet m k = some v := by
  intro m k' k v' v
  induction m with
  | nil =>
    intro h
    rw [alistSet, alistGet_cons] at h
    by_cases hk : k' = k
    · rw [if_pos hk] at h
      injection h with h
      exact Or.inl h.symm
    · rw [if_neg hk] at h
      exact absurd h (by rw [alistGet]; simp)
  | cons p m ih =>
    cases p with
    | mk k0 v0 =>
      intro h
      by_cases h0 : k0 = k'
      · rw [alistSet, if_pos h0, alistGet_cons] at h
        by_cases h1 : k0 = k
        · rw [if_pos h1] at h
          injection h with h
          exact Or.inl h.symm
        · rw [if_neg h1] at h
          rw [alistGet_cons, if_neg h1]
          exact Or.inr h
      · rw [alistSet, if_neg h0, alistGet_cons] at h
        by_cases h1 : k0 = k
        · rw [if_pos h1] at h
          rw [alistGet_cons, if_pos h1]
          exact Or.inr h
        · rw [if_neg h1] at h
          rw [alistGet_cons, if_neg h1]
          exact ih h

theorem buildNewMapGo_mem : ∀ (fs : List (String × List String))
    (m : List (String × (String × List String))) (ws : List (String × String))
    (k : String) (v : String × List String),
    alistGet (buildNewMapGo m ws fs).1 k = some v →
    alistGet m k = some v ∨ v ∈ fs := by
  intro fs
  induction fs with
  | nil => intro m ws k v h; exact Or.inl h
  | cons f fs ih =>
    intro m ws k v h
    rw [buildNewMapGo.eq_2] at h
    rcases ih _ _ _ _ h with h' | h'
    · rcases alistGet_set_cases m (make_key f.1) k f v h' with h'' | h''
      · exact Or.inr (by simp [h''])
      · exact Or.inl h''
    · exact Or.inr (by simp [h'])

theorem buildNewMap_mem {files : List (String × List String)} {k : String}
    {v : String × List String} (h : alistGet (buildNewMap files).1 k = some v) : v ∈ files := by
  rcases buildNewMapGo_mem files [] [] k v h with h' | h'
  · rw [alistGet] at h'
    exact absurd h' (by simp)
  · exact h'

theorem processOlds_ok : ∀ (olds : List (String × List String))
    (newMap : List (String × (String × List String))),
    (∀ p ∈ olds, (parse_srt p.2).isSome) →
    (∀ (k : String) (v : String × List String), alistGet newMap k = some v →
      (parse_srt v.2).isSome) →
    ∃ r, processOlds newMap olds = Except.ok r := by
  intro olds
  induction olds with
  | nil => intro newMap _ _; exact ⟨([], []), rfl⟩
  | cons f fs ih =>
    intro newMap holds hmap
    obtain ⟨r, hr⟩ := ih newMap (fun p hp => holds p (by simp [hp])) hmap
    cases hget : alistGet newMap (make_key f.1) with
    | none =>
      refine ⟨(r.1, Diag.skipped f.1 (make_key f.1) :: r.2), ?_⟩
      rw [processOlds.eq_2]
      simp only [hget, hr]
    | some nf =>
      obtain ⟨newEs, hnew⟩ := Option.isSome_iff_exists.mp (hmap _ _ hget)
      obtain ⟨oldEs, hold⟩ := Option.isSome_iff_exists.mp (holds f (by simp))
      refine ⟨((f.1, write_srt (resolveEntries f.1 (buildTsMap newEs) oldEs).1) :: r.1,
        (resolveEntries f.1 (buildTsMap newEs) oldEs).2.2 ++ r.2), ?_⟩
      rw [processOlds.eq_2]
      simp only [hget, hnew, hold, hr]

/-- C9 evidence (code_bug): the first half of the claim is real — with a
bad directory argument the run aborts with the descriptive fatal message
even though both directories hold files, i.e. before any file is
processed.  The second half is false of the code: with valid directories,
a matched old file whose only block is the single line `1` (a malformed
block, missing its timestamp line) makes `parse_srt` hit `buf[1]` — an
uncaught `IndexError`, modelled by `Except.error` — so this per-file
anomaly aborts the run with a non-zero exit status instead of being
reported as a diagnostic, contradicting the claim (and §7's propagation
policy, which reserves aborts for directory misconfiguration).  Malformed
timestamp lines, in turn, produce no diagnostic at all (see the C1
theorem). -/
theorem c9_fatal_dirs_and_crash :
    mainRun (World.mk false true
        [(("ep01.srt"), [("1"), ("00:00:01,000 --> 00:00:02,000"), ("Hello")])]
        [(("ep01.srt"), [("1"), ("00:00:09,999 --> 00:00:10,999"), ("Hola")])])
      = Except.error ("Both new_dir and old_dir must be existing directories.") ∧
    mainRun (World.mk true true
        [(("ep01.srt"), [("1"), ("00:00:01,000 --> 00:00:02,000"), ("Hello")])]
        [(("ep01.srt"), [("1")])])
      = Except.error ("IndexError: list index out of range") := by
  exact ⟨rfl, rfl⟩

end SyncTs
